import Mathlib

/-!
Verification development for the treeline page-grouped storage layer.

The definitions below are a shallow embedding of:
  * `src/page_grouping/segment_index.cc` (segment index lookups and
    rewrite-region discovery),
  * `src/bench/deferred_io_simulation.cc` (the deferred-I/O flush policy),
  * `DBImpl::GetRange` (the range-scan loop).

Keys are machine words (`uint64_t` in the source); we embed them as `Nat`
together with the saturation constant `kKeyMax = 2^64 - 1`, which is the
value `std::numeric_limits<Key>::max()` used by the source as the upper
bound of the last segment.
-/

namespace Treeline

/-- The largest representable key, `std::numeric_limits<Key>::max()`. -/
def kKeyMax : Nat := 2 ^ 64 - 1

/-- Segment descriptor `(id, pageCount, hasOverflow)` from the spec's data
model; `SetOverflow` mutates the overflow hint. -/
structure SegmentInfo where
  id : Nat
  pageCount : Nat
  hasOverflow : Bool
deriving DecidableEq

/-- `SegmentInfo::SetOverflow`. -/
def SegmentInfo.setOverflow (si : SegmentInfo) (b : Bool) : SegmentInfo :=
  ⟨si.id, si.pageCount, b⟩

/-- The ordered map `index_ : Key → SegmentInfo`, embedded as a list of
key/descriptor pairs in strictly increasing key order (the well-formedness
predicate `IdxWF` below states the order invariant that `std::map`
maintains by construction). Iterators become positions (`Nat` indices),
with `index_.end()` embedded as the position `idx.length`. -/
abbrev Index := List (Nat × SegmentInfo)

/-- `SegmentIndex::Entry`: a copied-out `(lower, upperExclusive, SegmentInfo)`
triple. -/
structure Entry where
  lower : Nat
  upper : Nat
  sinfo : SegmentInfo
deriving DecidableEq

/-- The keys of the index, in storage order. -/
def idxKeys (idx : Index) : List Nat := idx.map Prod.fst

/-- Well-formedness of the embedded `std::map`: keys strictly increase and
every key is representable (fits in the key word). -/
def IdxWF (idx : Index) : Prop :=
  (idxKeys idx).Pairwise (· < ·) ∧ ∀ k ∈ idxKeys idx, k ≤ kKeyMax

instance : DecidablePred IdxWF := fun idx => by
  unfold IdxWF; infer_instance

/-- `index_.upper_bound(key)`: position of the first entry whose key is
strictly greater than `key` (`idx.length` plays the role of `end()`). -/
def upperBoundIdx (idx : Index) (key : Nat) : Nat :=
  idx.findIdx (fun e => key < e.1)

/-- `index_.lower_bound(key)`: position of the first entry whose key is
greater than or equal to `key`. -/
def lowerBoundIdx (idx : Index) (key : Nat) : Nat :=
  idx.findIdx (fun e => key ≤ e.1)

/-- `SegmentIndex::SegmentForKeyImpl`: `upper_bound(key)`, stepped back by
one position unless it is already `begin()`. -/
def segmentForKeyImplPos (idx : Index) (key : Nat) : Nat :=
  let i := upperBoundIdx idx key
  if i = 0 then 0 else i - 1

/-- The `upperExclusive` computed for the entry at `pos`: the successor
entry's key, or `std::numeric_limits<Key>::max()` when `pos` is the last
entry (mirrors the tail of `SegmentIndex::IndexIteratorToEntry`). -/
def upperAt (idx : Index) (pos : Nat) : Nat :=
  match idx[pos + 1]? with
  | none => kKeyMax
  | some e => e.1

/-- `SegmentIndex::IndexIteratorToEntry`: copy the entry at `pos` out of the
index together with its derived upper bound; `none` embeds the undefined
behaviour of dereferencing `end()`. -/
def entryAt (idx : Index) (pos : Nat) : Option Entry :=
  match idx[pos]? with
  | none => none
  | some e => some ⟨e.1, upperAt idx pos, e.2⟩

/-- `SegmentIndex::SegmentForKey` (the shared latch is irrelevant to the
sequential embedding). -/
def segmentForKey (idx : Index) (key : Nat) : Option Entry :=
  entryAt idx (segmentForKeyImplPos idx key)

/-- `SegmentIndex::GetSegmentBoundsFor`: the located entry's key paired with
the successor key, or `kKeyMax` at the end. -/
def getSegmentBoundsFor (idx : Index) (key : Nat) : Option (Nat × Nat) :=
  match idx[segmentForKeyImplPos idx key]? with
  | none => none
  | some e => some (e.1, upperAt idx (segmentForKeyImplPos idx key))

/-- `SegmentIndex::SetSegmentOverflow`: rewrite the overflow hint of the
entry located by `SegmentForKeyImpl`. -/
def setSegmentOverflow (idx : Index) (key : Nat) (b : Bool) : Index :=
  match idx[segmentForKeyImplPos idx key]? with
  | none => idx
  | some e => idx.set (segmentForKeyImplPos idx key) (e.1, e.2.setOverflow b)

/-- The smallest `lower` stored in the index (`0` for the empty index, which
the claims exclude). -/
def firstLower (idx : Index) : Nat :=
  match idx with
  | [] => 0
  | e :: _ => e.1

/-- Whether the entry at `pos` covers key `k` in the sense of the spec's
range-cover invariant: `lower ≤ k < upperExclusive` with the bounds as
computed by `IndexIteratorToEntry`. -/
def coversAt (idx : Index) (pos k : Nat) : Bool :=
  match entryAt idx pos with
  | none => false
  | some e => decide (e.lower ≤ k) && decide (k < e.upper)

/-- Number of index positions whose computed segment range contains `k`. -/
def countCovering (idx : Index) (k : Nat) : Nat :=
  (List.range idx.length).countP (fun pos => coversAt idx pos k)

/-! ### Ordered-map lemmas -/

theorem keys_sorted_get {idx : Index} (hwf : IdxWF idx) {i j : Nat}
    {ei ej : Nat × SegmentInfo} (hi : idx[i]? = some ei)
    (hj : idx[j]? = some ej) (hij : i < j) : ei.1 < ej.1 := by
  rcases hwf with ⟨hs, -⟩
  rw [List.pairwise_iff_getElem] at hs
  obtain ⟨hi', hie⟩ := List.getElem?_eq_some.mp hi
  obtain ⟨hj', hje⟩ := List.getElem?_eq_some.mp hj
  have hmi : i < (idxKeys idx).length := by simpa [idxKeys] using hi'
  have hmj : j < (idxKeys idx).length := by simpa [idxKeys] using hj'
  have := hs i j hmi hmj hij
  simp only [idxKeys, List.getElem_map] at this
  rwa [hie, hje] at this

theorem upperBound_le_length (idx : Index) (k : Nat) :
    upperBoundIdx idx k ≤ idx.length :=
  List.findIdx_le_length _

theorem key_le_of_lt_upperBound {idx : Index} {k i : Nat}
    {e : Nat × SegmentInfo} (hlt : i < upperBoundIdx idx k)
    (he : idx[i]? = some e) : e.1 ≤ k := by
  obtain ⟨hi, hie⟩ := List.getElem?_eq_some.mp he
  unfold upperBoundIdx at hlt
  have hne := List.not_of_lt_findIdx hlt
  rw [hie] at hne
  simpa using hne

theorem lt_key_of_upperBound_le {idx : Index} (hwf : IdxWF idx) {k i : Nat}
    {e : Nat × SegmentInfo} (hle : upperBoundIdx idx k ≤ i)
    (he : idx[i]? = some e) : k < e.1 := by
  obtain ⟨hi, hie⟩ := List.getElem?_eq_some.mp he
  have hub : upperBoundIdx idx k < idx.length := Nat.lt_of_le_of_lt hle hi
  have hk : k < (idx[upperBoundIdx idx k]).1 := by
    unfold upperBoundIdx at hub ⊢
    have hpe := @List.findIdx_getElem _ (fun e => decide (k < e.1)) idx hub
    simpa using hpe
  rcases Nat.lt_or_ge (upperBoundIdx idx k) i with hlt | hge
  · have hub' : idx[upperBoundIdx idx k]? = some idx[upperBoundIdx idx k] :=
      List.getElem?_eq_getElem hub
    exact Nat.lt_trans hk (keys_sorted_get hwf hub' he hlt)
  · have heq : upperBoundIdx idx k = i := Nat.le_antisymm hle hge
    have h1 : idx[upperBoundIdx idx k]? = some e := by rw [heq]; exact he
    have h2 : idx[upperBoundIdx idx k]? = some idx[upperBoundIdx idx k] :=
      List.getElem?_eq_getElem hub
    have h3 : (idx[upperBoundIdx idx k]).1 = e.1 := by
      rw [Option.some_inj.mp (h2.symm.trans h1)]
    rwa [h3] at hk

theorem segmentForKeyImpl_spec {idx : Index} {K : Nat} (hwf : IdxWF idx)
    (hne : idx ≠ []) (hK : firstLower idx ≤ K) :
    segmentForKeyImplPos idx K + 1 = upperBoundIdx idx K ∧
    segmentForKeyImplPos idx K < idx.length := by
  have hlen : 0 < idx.length := List.length_pos.mpr hne
  have hub1 : 1 ≤ upperBoundIdx idx K := by
    by_contra h
    obtain ⟨e, rest, hcons⟩ : ∃ e rest, idx = e :: rest := by
      cases idx with
      | nil => exact absurd rfl hne
      | cons e rest => exact ⟨e, rest, rfl⟩
    subst hcons
    have h0' : (e :: rest)[0]? = some e := by simp
    have hlt := lt_key_of_upperBound_le hwf
      (show upperBoundIdx (e :: rest) K ≤ 0 by omega) h0'
    simp only [firstLower] at hK
    omega
  have hle := upperBound_le_length idx K
  have hne0 : ¬ upperBoundIdx idx K = 0 := by omega
  constructor
  · simp only [segmentForKeyImplPos, if_neg hne0]
    omega
  · simp only [segmentForKeyImplPos, if_neg hne0]
    omega

/-- C10 helper: when `K` is below the first stored key, `upper_bound`
already answers at the first entry. -/
theorem upperBound_below_first {e : Nat × SegmentInfo} {rest : Index}
    {K : Nat} (hK : K < e.1) : upperBoundIdx (e :: rest) K = 0 := by
  simp [upperBoundIdx, List.findIdx_cons, hK]

/-- C10: for a key strictly below the smallest stored lower bound,
`SegmentForKeyImpl` stays at `begin()`, so `SegmentForKey`,
`GetSegmentBoundsFor` and `SetSegmentOverflow` all resolve to the first
index entry — whose lower bound is strictly greater than the key — instead
of failing or returning a true predecessor. -/
theorem segmentForKey_below_first (e : Nat × SegmentInfo) (rest : Index)
    (K : Nat) (b : Bool) (hK : K < e.1) :
    segmentForKeyImplPos (e :: rest) K = 0 ∧
    segmentForKey (e :: rest) K = some ⟨e.1, upperAt (e :: rest) 0, e.2⟩ ∧
    getSegmentBoundsFor (e :: rest) K = some (e.1, upperAt (e :: rest) 0) ∧
    setSegmentOverflow (e :: rest) K b = (e.1, e.2.setOverflow b) :: rest := by
  have h0 : segmentForKeyImplPos (e :: rest) K = 0 := by
    simp [segmentForKeyImplPos, upperBound_below_first hK]
  refine ⟨h0, ?_, ?_, ?_⟩
  · simp [segmentForKey, h0, entryAt]
  · simp [getSegmentBoundsFor, h0]
  · simp [setSegmentOverflow, h0]

/-- Witness for C10 at a concrete index. -/
theorem segmentForKey_below_first_witness :
    (3 : Nat) < 5 ∧
    (segmentForKeyImplPos [(5, ⟨1, 2, false⟩), (10, ⟨2, 2, true⟩)] 3 = 0 ∧
     segmentForKey [(5, ⟨1, 2, false⟩), (10, ⟨2, 2, true⟩)] 3 =
       some ⟨5, upperAt [(5, ⟨1, 2, false⟩), (10, ⟨2, 2, true⟩)] 0, ⟨1, 2, false⟩⟩ ∧
     getSegmentBoundsFor [(5, ⟨1, 2, false⟩), (10, ⟨2, 2, true⟩)] 3 =
       some (5, upperAt [(5, ⟨1, 2, false⟩), (10, ⟨2, 2, true⟩)] 0) ∧
     setSegmentOverflow [(5, ⟨1, 2, false⟩), (10, ⟨2, 2, true⟩)] 3 true =
       (5, SegmentInfo.setOverflow ⟨1, 2, false⟩ true) :: [(10, ⟨2, 2, true⟩)]) :=
  ⟨by decide, segmentForKey_below_first (5, ⟨1, 2, false⟩) [(10, ⟨2, 2, true⟩)] 3 true (by decide)⟩

/-- C3 counterexample: on the index `{5 ↦ s}` and key `3`, `SegmentForKey`
returns the entry with lower bound `5`, which does not satisfy
`lower ≤ key`; so the unconditional predecessor reading of C3 is false
(no entry with `lower ≤ 3` exists, yet an entry is returned). -/
theorem segmentForKey_not_predecessor_counterexample :
    segmentForKey [(5, ⟨1, 1, false⟩)] 3 =
      some ⟨5, kKeyMax, ⟨1, 1, false⟩⟩ ∧ ¬ (5 : Nat) ≤ 3 :=
  ⟨rfl, by decide⟩

/-- C3 (amended with `firstLower idx ≤ K`): for any key at or above the
smallest stored lower bound, `SegmentForKey` performs a predecessor lookup:
it returns the stored entry with the greatest lower bound `≤ K`, copied out
together with its `SegmentInfo` and the derived `upperExclusive`, and
`GetSegmentBoundsFor` agrees. -/
theorem segmentForKey_predecessor (idx : Index) (K : Nat) (hwf : IdxWF idx)
    (hne : idx ≠ []) (hK : firstLower idx ≤ K) :
    ∃ i e, idx[i]? = some (e.lower, e.sinfo) ∧
      segmentForKey idx K = some e ∧
      e.lower ≤ K ∧
      (∀ j p, idx[j]? = some p → p.1 ≤ K → p.1 ≤ e.lower ∧ j ≤ i) ∧
      e.upper = upperAt idx i ∧
      getSegmentBoundsFor idx K = some (e.lower, e.upper) := by
  obtain ⟨hP1, hPlen⟩ := segmentForKeyImpl_spec hwf hne hK
  have hp : idx[segmentForKeyImplPos idx K]? =
      some idx[segmentForKeyImplPos idx K] := List.getElem?_eq_getElem hPlen
  refine ⟨segmentForKeyImplPos idx K,
    ⟨(idx[segmentForKeyImplPos idx K]).1,
     upperAt idx (segmentForKeyImplPos idx K),
     (idx[segmentForKeyImplPos idx K]).2⟩, ?_, ?_, ?_, ?_, ?_, ?_⟩
  · simp [hp]
  · simp [segmentForKey, entryAt, hp]
  · exact key_le_of_lt_upperBound (by omega) hp
  · intro j p hj hpK
    have hjlt : j < upperBoundIdx idx K := by
      by_contra h
      have := lt_key_of_upperBound_le hwf
        (show upperBoundIdx idx K ≤ j by omega) hj
      omega
    have hji : j ≤ segmentForKeyImplPos idx K := by omega
    refine ⟨?_, hji⟩
    rcases Nat.lt_or_ge j (segmentForKeyImplPos idx K) with hlt | hge
    · exact Nat.le_of_lt (keys_sorted_get hwf hj hp hlt)
    · have : j = segmentForKeyImplPos idx K := by omega
      subst this
      rw [Option.some_inj.mp (hj.symm.trans hp)]
  · rfl
  · simp [getSegmentBoundsFor, hp]

/-- Concrete two-segment index used by witnesses. -/
def idxTwo : Index := [(5, ⟨1, 1, false⟩), (10, ⟨2, 1, true⟩)]

/-- Witness for the amended C3 at a concrete index and key. -/
theorem segmentForKey_predecessor_witness :
    (IdxWF idxTwo ∧ idxTwo ≠ [] ∧ firstLower idxTwo ≤ 7) ∧
    (∃ i e, idxTwo[i]? = some (e.lower, e.sinfo) ∧
      segmentForKey idxTwo 7 = some e ∧
      e.lower ≤ 7 ∧
      (∀ j p, idxTwo[j]? = some p → p.1 ≤ 7 → p.1 ≤ e.lower ∧ j ≤ i) ∧
      e.upper = upperAt idxTwo i ∧
      getSegmentBoundsFor idxTwo 7 = some (e.lower, e.upper)) :=
  ⟨⟨by decide, by decide, by decide⟩,
   segmentForKey_predecessor idxTwo 7 (by decide) (by decide) (by decide)⟩

theorem countP_range_one (p : Nat → Bool) (n i : Nat) (hi : i < n)
    (hp : p i = true) (hu : ∀ j, j < n → p j = true → j = i) :
    (List.range n).countP p = 1 := by
  induction n with
  | zero => omega
  | succ m ih =>
    rw [List.range_succ, List.countP_append]
    rcases Nat.lt_or_ge i m with him | him
    · have h1 : (List.range m).countP p = 1 :=
        ih him (fun j hj hpj => hu j (Nat.lt_succ_of_lt hj) hpj)
      have h2 : p m = false := by
        cases hpm : p m with
        | false => rfl
        | true =>
          have := hu m (Nat.lt_succ_self m) hpm
          omega
      simp [List.countP_cons, h1, h2]
    · have heq : i = m := by omega
      subst heq
      have h0 : (List.range i).countP p = 0 := by
        rw [List.countP_eq_zero]
        intro a ha hpa
        have ha' : a < i := List.mem_range.mp ha
        have := hu a (Nat.lt_succ_of_lt ha') hpa
        omega
      simp [List.countP_cons, hp, h0]

theorem coversAt_true_iff {idx : Index} {pos k : Nat} :
    coversAt idx pos k = true ↔
      ∃ p, idx[pos]? = some p ∧ p.1 ≤ k ∧ k < upperAt idx pos := by
  unfold coversAt entryAt
  cases h : idx[pos]? with
  | none => simp
  | some p => simp

/-- Concrete one-segment index used by the C2 counterexample. -/
def idxOne : Index := [(0, ⟨1, 1, false⟩)]

/-- C2 counterexample: the maximum representable key `kKeyMax` lies in the
key domain of the (non-empty, well-formed) index `{0 ↦ s}`, yet no entry
satisfies `lower ≤ K < upperExclusive`, because the last entry's computed
`upperExclusive` saturates at `kKeyMax` itself rather than a true `+∞`. -/
theorem rangeCover_at_kKeyMax_counterexample :
    idxOne ≠ [] ∧ IdxWF idxOne ∧ firstLower idxOne ≤ kKeyMax ∧
    countCovering idxOne kKeyMax = 0 := by
  refine ⟨by decide, by decide, by decide, ?_⟩
  decide

/-- C2 (amended to exclude the maximum representable key, at which the
computed upper bound saturates): for every key `K` with
`firstLower ≤ K < kKeyMax` and every non-empty well-formed index, exactly
one entry satisfies `lower ≤ K < upperExclusive`, with `upperExclusive`
computed as the successor entry's lower bound, or `kKeyMax` for the last
entry. -/
theorem rangeCover (idx : Index) (K : Nat) (hwf : IdxWF idx)
    (hne : idx ≠ []) (hlo : firstLower idx ≤ K) (hhi : K < kKeyMax) :
    countCovering idx K = 1 := by
  obtain ⟨hP1, hPlen⟩ := segmentForKeyImpl_spec hwf hne hlo
  have hp : idx[segmentForKeyImplPos idx K]? =
      some idx[segmentForKeyImplPos idx K] := List.getElem?_eq_getElem hPlen
  have hcov : coversAt idx (segmentForKeyImplPos idx K) K = true := by
    rw [coversAt_true_iff]
    refine ⟨idx[segmentForKeyImplPos idx K], hp,
      key_le_of_lt_upperBound (by omega) hp, ?_⟩
    cases hq : idx[segmentForKeyImplPos idx K + 1]? with
    | none =>
      simp only [upperAt, hq]
      exact hhi
    | some q =>
      simp only [upperAt, hq]
      exact lt_key_of_upperBound_le hwf
        (show upperBoundIdx idx K ≤ segmentForKeyImplPos idx K + 1 by omega) hq
  have huniq : ∀ j, j < idx.length → coversAt idx j K = true →
      j = segmentForKeyImplPos idx K := by
    intro j hj hc
    rw [coversAt_true_iff] at hc
    obtain ⟨p, hjp, hpk, hku⟩ := hc
    have hjlt : j < upperBoundIdx idx K := by
      by_contra h
      have := lt_key_of_upperBound_le hwf
        (show upperBoundIdx idx K ≤ j by omega) hjp
      omega
    by_contra hne'
    have hjP : j < segmentForKeyImplPos idx K := by omega
    have hjlen : j + 1 < idx.length := by omega
    have hq : idx[j + 1]? = some idx[j + 1] := List.getElem?_eq_getElem hjlen
    have hupper : upperAt idx j = (idx[j + 1]).1 := by
      simp only [upperAt, hq]
    have hle2 : (idx[j + 1]).1 ≤ (idx[segmentForKeyImplPos idx K]).1 := by
      rcases Nat.lt_or_ge (j + 1) (segmentForKeyImplPos idx K) with hlt | hge
      · exact Nat.le_of_lt (keys_sorted_get hwf hq hp hlt)
      · have heq : j + 1 = segmentForKeyImplPos idx K := by omega
        have h5 := congrArg (fun t => idx[t]?) heq
        have h6 : some idx[j + 1] = some idx[segmentForKeyImplPos idx K] :=
          (hq.symm.trans h5).trans hp
        rw [Option.some_inj.mp h6]
    have hPk : (idx[segmentForKeyImplPos idx K]).1 ≤ K :=
      key_le_of_lt_upperBound (by omega) hp
    rw [hupper] at hku
    omega
  unfold countCovering
  exact countP_range_one _ _ _ hPlen hcov huniq

/-- Witness for the amended C2 at a concrete index and key. -/
theorem rangeCover_witness :
    (IdxWF idxTwo ∧ idxTwo ≠ [] ∧ firstLower idxTwo ≤ 7 ∧ 7 < kKeyMax) ∧
    countCovering idxTwo 7 = 1 :=
  ⟨⟨by decide, by decide, by decide, by decide⟩,
   rangeCover idxTwo 7 (by decide) (by decide) (by decide) (by decide)⟩

/-! ### Rewrite-region discovery (`SegmentIndex::FindAndLockRewriteRegion`) -/

/-- Overflow hint of the entry at `pos` (`false` out of range; the walks
only consult in-range positions). -/
def hasOvfAt (idx : Index) (pos : Nat) : Bool :=
  match idx[pos]? with
  | none => false
  | some e => e.2.hasOverflow

/-- The backward scan of `FindAndLockRewriteRegion` (source lines 92-103):
from iterator position `prev` with `num` checks remaining, decrement first,
stop on the first segment without overflow (excluded), also stop after
pushing `begin()`. Returns the positions pushed, in push order. Entered
only with `prev ≠ 0` (the `it != index_.begin()` guard). -/
def backWalk (idx : Index) : Nat → Nat → List Nat
  | _, 0 => []
  | prev, num + 1 =>
    if hasOvfAt idx (prev - 1) then
      (prev - 1) :: (if prev - 1 = 0 then [] else backWalk idx (prev - 1) num)
    else []

/-- The forward scan of `FindAndLockRewriteRegion` (source lines 105-113):
from position `next` with `num` checks remaining, stop at `end()` or on the
first segment without overflow (excluded). -/
def fwdWalk (idx : Index) : Nat → Nat → List Nat
  | _, 0 => []
  | next, num + 1 =>
    if next < idx.length then
      if hasOvfAt idx next then next :: fwdWalk idx (next + 1) num
      else []
    else []

/-- Positions collected under the shared latch: the base segment at `pos`
(i.e. `lower_bound(segment_base)`), then the backward walk, then the
forward walk, in the order the source pushes them. -/
def collectPositions (idx : Index) (pos radius : Nat) : List Nat :=
  pos :: ((if pos = 0 then [] else backWalk idx pos radius) ++
    fwdWalk idx (pos + 1) radius)

/-- Comparator of the `std::sort` call: ascending `lower`. (`mergeSort`
with `≤` computes the same list as `std::sort` with `<` here because the
collected lower bounds are pairwise distinct.) -/
def entryLe (a b : Entry) : Bool := decide (a.lower ≤ b.lower)

/-- The sorted vector `segments_to_rewrite` right before lock acquisition. -/
def rewriteRegionSorted (idx : Index) (segBase radius : Nat) : List Entry :=
  (((collectPositions idx (lowerBoundIdx idx segBase) radius).filterMap
    (fun p => entryAt idx p)).mergeSort entryLe)

/-- Segment-lock events issued by `FindAndLockRewriteRegion` through the
lock manager, in program order. -/
inductive LockEv where
  | acquire (segId : Nat)
  | release (segId : Nat)
deriving DecidableEq

/-- `index_.find(key)`: position of the entry with exactly this key
(`idx.length`, i.e. `end()`, when absent). -/
def findPos (idx : Index) (key : Nat) : Nat :=
  idx.findIdx (fun e => e.1 = key)

/-- The revalidation loop (source lines 142-149): starting at iterator
position `p`, each collected segment's `lower` must match the current
entry, advancing one position per segment. -/
def revalidateFrom (idx2 : Index) : Nat → List Entry → Bool
  | _, [] => true
  | p, seg :: rest =>
    match idx2[p]? with
    | none => false
    | some e => decide (e.1 = seg.lower) && revalidateFrom idx2 (p + 1) rest

/-- Full revalidation: `find` the front segment's lower bound, then run the
consecutive check over the whole collected vector. -/
def revalidate (idx2 : Index) (segs : List Entry) : Bool :=
  match segs with
  | [] => true
  | seg :: _ => revalidateFrom idx2 (findPos idx2 seg.lower) segs

/-- `SegmentIndex::FindAndLockRewriteRegion`, two-snapshot embedding:
`idx1` is the index contents while the shared latch is held for collection,
`idx2` the contents at revalidation time (a concurrent reorg may have
changed the index in between; under quiescence `idx1 = idx2`). Returns the
result vector and the lock-event trace. The backoff loops around
`TryAcquireSegmentLock` always end in a successful acquisition, so each
segment contributes exactly one `acquire` event. -/
def findAndLockRewriteRegion (idx1 idx2 : Index) (segBase radius : Nat) :
    List Entry × List LockEv :=
  let sorted := rewriteRegionSorted idx1 segBase radius
  let acq := sorted.map (fun s => LockEv.acquire s.sinfo.id)
  if revalidate idx2 sorted then (sorted, acq)
  else ([], acq ++ sorted.map (fun s => LockEv.release s.sinfo.id))

theorem fwdWalk_mem (idx : Index) (num : Nat) : ∀ next q,
    q ∈ fwdWalk idx next num ↔
      next ≤ q ∧ q < next + num ∧ q < idx.length ∧
      ∀ r, next ≤ r → r ≤ q → hasOvfAt idx r = true := by
  induction num with
  | zero =>
    intro next q
    simp only [fwdWalk, List.not_mem_nil, false_iff]
    intro h
    omega
  | succ m ih =>
    intro next q
    simp only [fwdWalk]
    by_cases hlen : next < idx.length
    · rw [if_pos hlen]
      by_cases hovf : hasOvfAt idx next = true
      · rw [if_pos hovf]
        rw [List.mem_cons, ih (next + 1) q]
        constructor
        · rintro (rfl | ⟨h1, h2, h3, h4⟩)
          · refine ⟨Nat.le_refl _, by omega, hlen, fun r hr1 hr2 => ?_⟩
            have : r = q := by omega
            subst this
            exact hovf
          · refine ⟨by omega, by omega, h3, fun r hr1 hr2 => ?_⟩
            rcases Nat.eq_or_lt_of_le hr1 with heq | hlt
            · subst heq
              exact hovf
            · exact h4 r (by omega) hr2
        · rintro ⟨h1, h2, h3, h4⟩
          rcases Nat.eq_or_lt_of_le h1 with heq | hlt
          · left
            omega
          · right
            exact ⟨by omega, by omega, h3, fun r hr1 hr2 => h4 r (by omega) hr2⟩
      · rw [if_neg hovf]
        simp only [List.not_mem_nil, false_iff]
        rintro ⟨h1, h2, h3, h4⟩
        exact hovf (h4 next (Nat.le_refl _) h1)
    · rw [if_neg hlen]
      simp only [List.not_mem_nil, false_iff]
      rintro ⟨h1, h2, h3, h4⟩
      omega

theorem backWalk_mem (idx : Index) (num : Nat) : ∀ prev q, 1 ≤ prev →
    (q ∈ backWalk idx prev num ↔
      q < prev ∧ prev ≤ q + num ∧
      ∀ r, q ≤ r → r < prev → hasOvfAt idx r = true) := by
  induction num with
  | zero =>
    intro prev q hprev
    simp only [backWalk, List.not_mem_nil, false_iff]
    intro h
    omega
  | succ m ih =>
    intro prev q hprev
    simp only [backWalk]
    by_cases hovf : hasOvfAt idx (prev - 1) = true
    · rw [if_pos hovf]
      by_cases h0 : prev - 1 = 0
      · rw [if_pos h0]
        simp only [List.mem_cons, List.not_mem_nil, or_false]
        constructor
        · intro heq
          refine ⟨by omega, by omega, fun r hr1 hr2 => ?_⟩
          have : r = prev - 1 := by omega
          subst this
          exact hovf
        · rintro ⟨h1, h2, h3⟩
          omega
      · rw [if_neg h0]
        rw [List.mem_cons, ih (prev - 1) q (by omega)]
        constructor
        · rintro (heq | ⟨h1, h2, h3⟩)
          · refine ⟨by omega, by omega, fun r hr1 hr2 => ?_⟩
            have : r = prev - 1 := by omega
            subst this
            exact hovf
          · refine ⟨by omega, by omega, fun r hr1 hr2 => ?_⟩
            rcases Nat.lt_or_ge r (prev - 1) with hlt | hge
            · exact h3 r hr1 hlt
            · have : r = prev - 1 := by omega
              subst this
              exact hovf
        · rintro ⟨h1, h2, h3⟩
          rcases Nat.eq_or_lt_of_le (Nat.le_sub_one_of_lt h1) with heq | hlt
          · left
            omega
          · right
            exact ⟨by omega, by omega, fun r hr1 hr2 => h3 r hr1 (by omega)⟩
    · rw [if_neg hovf]
      simp only [List.not_mem_nil, false_iff]
      rintro ⟨h1, h2, h3⟩
      exact hovf (h3 (prev - 1) (by omega) (by omega))

theorem backWalk_subset_lt (idx : Index) (num : Nat) {prev q : Nat}
    (hprev : 1 ≤ prev) (hq : q ∈ backWalk idx prev num) : q < prev :=
  ((backWalk_mem idx num prev q hprev).mp hq).1

theorem fwdWalk_subset_ge (idx : Index) (num : Nat) {next q : Nat}
    (hq : q ∈ fwdWalk idx next num) : next ≤ q :=
  ((fwdWalk_mem idx num next q).mp hq).1

theorem backWalk_pairwise (idx : Index) (num : Nat) : ∀ prev, 1 ≤ prev →
    (backWalk idx prev num).Pairwise (fun a b => b < a) := by
  induction num with
  | zero =>
    intro prev hprev
    simp [backWalk]
  | succ m ih =>
    intro prev hprev
    simp only [backWalk]
    by_cases hovf : hasOvfAt idx (prev - 1) = true
    · rw [if_pos hovf]
      by_cases h0 : prev - 1 = 0
      · rw [if_pos h0]
        simp
      · rw [if_neg h0]
        refine List.Pairwise.cons ?_ (ih (prev - 1) (by omega))
        intro b hb
        exact backWalk_subset_lt idx m (by omega) hb
    · rw [if_neg hovf]
      simp


theorem fwdWalk_pairwise (idx : Index) (num : Nat) : ∀ next,
    (fwdWalk idx next num).Pairwise (· < ·) := by
  induction num with
  | zero =>
    intro next
    simp [fwdWalk]
  | succ m ih =>
    intro next
    simp only [fwdWalk]
    by_cases hlen : next < idx.length
    · rw [if_pos hlen]
      by_cases hovf : hasOvfAt idx next = true
      · rw [if_pos hovf]
        refine List.Pairwise.cons ?_ (ih (next + 1))
        intro b hb
        have := fwdWalk_subset_ge idx m hb
        omega
      · rw [if_neg hovf]
        simp
    · rw [if_neg hlen]
      simp

theorem collectPositions_nodup (idx : Index) (pos radius : Nat) :
    (collectPositions idx pos radius).Nodup := by
  show (collectPositions idx pos radius).Pairwise (· ≠ ·)
  unfold collectPositions
  refine List.Pairwise.cons ?_ ?_
  · intro b hb
    rcases List.mem_append.mp hb with hback | hfwd
    · by_cases h0 : pos = 0
      · rw [if_pos h0] at hback
        exact absurd hback (List.not_mem_nil b)
      · rw [if_neg h0] at hback
        have := backWalk_subset_lt idx radius (by omega) hback
        omega
    · have := fwdWalk_subset_ge idx radius hfwd
      omega
  · rw [List.pairwise_append]
    refine ⟨?_, ?_, ?_⟩
    · by_cases h0 : pos = 0
      · rw [if_pos h0]
        simp
      · rw [if_neg h0]
        exact (backWalk_pairwise idx radius pos (by omega)).imp
          (fun h => Nat.ne_of_gt h)
    · exact (fwdWalk_pairwise idx radius (pos + 1)).imp
        (fun h => Nat.ne_of_lt h)
    · intro a ha b hb
      have hb' := fwdWalk_subset_ge idx radius hb
      by_cases h0 : pos = 0
      · rw [if_pos h0] at ha
        exact absurd ha (List.not_mem_nil a)
      · rw [if_neg h0] at ha
        have := backWalk_subset_lt idx radius (by omega) ha
        omega

theorem entryAt_some {idx : Index} {p : Nat} {e : Entry} :
    entryAt idx p = some e ↔
      ∃ q, idx[p]? = some q ∧ e = ⟨q.1, upperAt idx p, q.2⟩ := by
  unfold entryAt
  cases h : idx[p]? with
  | none => simp
  | some q =>
    simp only [Option.some_inj]
    constructor
    · intro he
      exact ⟨q, rfl, he.symm⟩
    · rintro ⟨q', hq', rfl⟩
      rw [hq']

theorem lowerBound_exact {idx : Index} (hwf : IdxWF idx) {key : Nat}
    {si : SegmentInfo} (h : (key, si) ∈ idx) :
    idx[lowerBoundIdx idx key]? = some (key, si) ∧
    lowerBoundIdx idx key < idx.length := by
  obtain ⟨j0, hj0len, hj0⟩ := List.getElem_of_mem h
  have hlen : lowerBoundIdx idx key < idx.length := by
    unfold lowerBoundIdx
    exact List.findIdx_lt_length_of_exists ⟨(key, si), h, by simp⟩
  have hle : lowerBoundIdx idx key ≤ j0 := by
    by_contra hcon
    have hlt : j0 < lowerBoundIdx idx key := by omega
    unfold lowerBoundIdx at hlt
    have := List.not_of_lt_findIdx hlt
    rw [hj0] at this
    simp at this
  have hkey : key ≤ (idx[lowerBoundIdx idx key]).1 := by
    unfold lowerBoundIdx
    have := @List.findIdx_getElem _ (fun e => decide (key ≤ e.1)) idx
      (by unfold lowerBoundIdx at hlen; exact hlen)
    simpa using this
  have heqj : lowerBoundIdx idx key = j0 := by
    rcases Nat.eq_or_lt_of_le hle with heq | hlt
    · exact heq
    · have hjq : idx[j0]? = some (key, si) := by
        rw [List.getElem?_eq_getElem hj0len, hj0]
      have hpq : idx[lowerBoundIdx idx key]? =
          some idx[lowerBoundIdx idx key] := List.getElem?_eq_getElem hlen
      have := keys_sorted_get hwf hpq hjq hlt
      simp only at this
      omega
  refine ⟨?_, hlen⟩
  rw [heqj, List.getElem?_eq_getElem hj0len, hj0]

theorem entries_lowers_nodup {idx : Index} (hwf : IdxWF idx)
    {ps : List Nat} (hnd : ps.Nodup) :
    ((ps.filterMap (fun p => entryAt idx p)).map (fun e => e.lower)).Nodup := by
  show ((ps.filterMap (fun p => entryAt idx p)).map
    (fun e => e.lower)).Pairwise (· ≠ ·)
  rw [List.pairwise_map, List.pairwise_filterMap]
  refine hnd.imp_of_mem ?_
  intro a b ha hb hab x hx y hy
  obtain ⟨qa, hqa, rfl⟩ := entryAt_some.mp hx
  obtain ⟨qb, hqb, rfl⟩ := entryAt_some.mp hy
  simp only
  rcases Nat.lt_or_ge a b with hlt | hge
  · exact Nat.ne_of_lt (keys_sorted_get hwf hqa hqb hlt)
  · have hlt : b < a := by
      rcases Nat.eq_or_lt_of_le hge with heq | hlt
      · exact absurd heq.symm hab
      · exact hlt
    exact Nat.ne_of_gt (keys_sorted_get hwf hqb hqa hlt)

theorem entryLe_trans (a b c : Entry) (hab : entryLe a b = true)
    (hbc : entryLe b c = true) : entryLe a c = true := by
  simp only [entryLe, decide_eq_true_eq] at *
  omega

theorem entryLe_total (a b : Entry) : (entryLe a b || entryLe b a) = true := by
  simp only [entryLe, Bool.or_eq_true, decide_eq_true_eq]
  omega

/-- The sorted rewrite region is strictly ascending in `lower` (C5's
ordering clause; strictness holds because the collected positions are
pairwise distinct and index keys strictly increase). -/
theorem rewriteRegionSorted_strict {idx : Index} (hwf : IdxWF idx)
    (segBase radius : Nat) :
    (rewriteRegionSorted idx segBase radius).Pairwise
      (fun a b => a.lower < b.lower) := by
  unfold rewriteRegionSorted
  have hperm := List.mergeSort_perm
    ((collectPositions idx (lowerBoundIdx idx segBase) radius).filterMap
      (fun p => entryAt idx p)) entryLe
  have hle := List.sorted_mergeSort entryLe_trans entryLe_total
    ((collectPositions idx (lowerBoundIdx idx segBase) radius).filterMap
      (fun p => entryAt idx p))
  have hnd := entries_lowers_nodup hwf
    (collectPositions_nodup idx (lowerBoundIdx idx segBase) radius)
  have hnd2 := ((hperm.map (fun e => e.lower)).symm.nodup) hnd
  have hne : (((collectPositions idx (lowerBoundIdx idx segBase) radius).filterMap
      (fun p => entryAt idx p)).mergeSort entryLe).Pairwise
      (fun a b => a.lower ≠ b.lower) := by
    rw [List.Nodup, List.pairwise_map] at hnd2
    exact hnd2
  have hle' := hle.imp (fun h => by
    simpa [entryLe] using h)
  exact (hle'.and hne).imp (fun h => Nat.lt_of_le_of_ne h.1 h.2)

/-- Membership characterization of the collected region (C5): the base
position itself; up to `radius` immediately preceding positions, all with
the overflow hint set, the walk stopping at the first position without it;
and symmetrically up to `radius` immediately following positions. -/
theorem collectPositions_mem (idx : Index) (pos radius q : Nat) :
    q ∈ collectPositions idx pos radius ↔
      (q = pos ∨
       (q < pos ∧ pos ≤ q + radius ∧
        ∀ r, q ≤ r → r < pos → hasOvfAt idx r = true) ∨
       (pos < q ∧ q ≤ pos + radius ∧ q < idx.length ∧
        ∀ r, pos < r → r ≤ q → hasOvfAt idx r = true)) := by
  unfold collectPositions
  rw [List.mem_cons, List.mem_append]
  apply or_congr Iff.rfl
  apply or_congr
  · by_cases h0 : pos = 0
    · subst h0
      rw [if_pos rfl]
      simp only [List.not_mem_nil, false_iff]
      rintro ⟨h1, h2, h3⟩
      omega
    · rw [if_neg h0]
      exact backWalk_mem idx radius pos q (by omega)
  · rw [fwdWalk_mem idx radius (pos + 1) q]
    constructor
    · rintro ⟨h1, h2, h3, h4⟩
      exact ⟨by omega, by omega, h3, fun r hr1 hr2 => h4 r (by omega) hr2⟩
    · rintro ⟨h1, h2, h3, h4⟩
      exact ⟨by omega, by omega, h3, fun r hr1 hr2 => h4 r (by omega) hr2⟩

theorem revalidateFrom_spec (idx2 : Index) : ∀ segs : List Entry, ∀ p,
    revalidateFrom idx2 p segs = true →
    ∀ n e, segs[n]? = some e → ∃ si, idx2[p + n]? = some (e.lower, si) := by
  intro segs
  induction segs with
  | nil =>
    intro p _ n e hn
    simp at hn
  | cons seg rest ih =>
    intro p h n e hn
    simp only [revalidateFrom] at h
    cases hq : idx2[p]? with
    | none =>
      rw [hq] at h
      simp at h
    | some q =>
      rw [hq] at h
      simp only [Bool.and_eq_true, decide_eq_true_eq] at h
      obtain ⟨hkey, hrest⟩ := h
      cases n with
      | zero =>
        have hseg : seg = e := by simpa using hn
        subst hseg
        refine ⟨q.2, ?_⟩
        rw [Nat.add_zero, hq, ← hkey]
      | succ m =>
        obtain ⟨si, hsi⟩ := ih (p + 1) hrest m e (by simpa using hn)
        refine ⟨si, ?_⟩
        rw [show p + (m + 1) = p + 1 + m by omega]
        exact hsi

theorem lockEv_counts (l : List Entry) (sid : Nat) :
    ((l.map (fun s => LockEv.acquire s.sinfo.id)) ++
      (l.map (fun s => LockEv.release s.sinfo.id))).count (LockEv.acquire sid) =
    ((l.map (fun s => LockEv.acquire s.sinfo.id)) ++
      (l.map (fun s => LockEv.release s.sinfo.id))).count (LockEv.release sid) := by
  have hinj1 : Function.Injective LockEv.acquire := by
    intro a b h
    injection h
  have hinj2 : Function.Injective LockEv.release := by
    intro a b h
    injection h
  have hm1 : l.map (fun s => LockEv.acquire s.sinfo.id) =
      (l.map (fun s => s.sinfo.id)).map LockEv.acquire := by
    rw [List.map_map]
    rfl
  have hm2 : l.map (fun s => LockEv.release s.sinfo.id) =
      (l.map (fun s => s.sinfo.id)).map LockEv.release := by
    rw [List.map_map]
    rfl
  have h1 : ((l.map (fun s => s.sinfo.id)).map LockEv.release).count
      (LockEv.acquire sid) = 0 := by
    rw [List.count_eq_zero]
    intro hmem
    obtain ⟨s, -, heq⟩ := List.mem_map.mp hmem
    exact LockEv.noConfusion heq
  have h2 : ((l.map (fun s => s.sinfo.id)).map LockEv.acquire).count
      (LockEv.release sid) = 0 := by
    rw [List.count_eq_zero]
    intro hmem
    obtain ⟨s, -, heq⟩ := List.mem_map.mp hmem
    exact LockEv.noConfusion heq
  rw [List.count_append, List.count_append, hm1, hm2,
    List.count_map_of_injective _ _ hinj1,
    List.count_map_of_injective _ _ hinj2, h1, h2]
  omega

theorem rewriteRegionSorted_ne_nil {idx : Index} {segBase radius : Nat}
    (hbase : lowerBoundIdx idx segBase < idx.length) :
    rewriteRegionSorted idx segBase radius ≠ [] := by
  intro hnil
  have hperm := List.mergeSort_perm
    ((collectPositions idx (lowerBoundIdx idx segBase) radius).filterMap
      (fun p => entryAt idx p)) entryLe
  unfold rewriteRegionSorted at hnil
  rw [hnil] at hperm
  obtain ⟨e, he⟩ : ∃ e, entryAt idx (lowerBoundIdx idx segBase) = some e := by
    unfold entryAt
    rw [List.getElem?_eq_getElem hbase]
    exact ⟨_, rfl⟩
  have hmem : e ∈ (collectPositions idx (lowerBoundIdx idx segBase)
      radius).filterMap (fun p => entryAt idx p) :=
    List.mem_filterMap.mpr ⟨lowerBoundIdx idx segBase,
      (collectPositions_mem idx _ radius _).mpr (Or.inl rfl), he⟩
  exact absurd (hperm.mem_iff.mpr hmem) (List.not_mem_nil e)

/-- C4: `FindAndLockRewriteRegion` either returns a non-empty vector whose
collected lower bounds all still appear at consecutive index positions at
revalidation time (`idx2`), or revalidation failed, every `Reorg` lock
acquired by the call has a matching release in its lock-event trace (so
none remains held), and the returned vector is empty, signalling retry. -/
theorem findAndLockRewriteRegion_revalidation (idx1 idx2 : Index)
    (segBase radius : Nat)
    (hbase : lowerBoundIdx idx1 segBase < idx1.length) :
    ((findAndLockRewriteRegion idx1 idx2 segBase radius).1 ≠ [] ∧
     ∃ p, ∀ (n : Nat) (e : Entry),
       (findAndLockRewriteRegion idx1 idx2 segBase radius).1[n]? = some e →
       ∃ si, idx2[p + n]? = some (e.lower, si)) ∨
    ((findAndLockRewriteRegion idx1 idx2 segBase radius).1 = [] ∧
     ∀ sid, (findAndLockRewriteRegion idx1 idx2 segBase radius).2.count
         (LockEv.acquire sid) =
       (findAndLockRewriteRegion idx1 idx2 segBase radius).2.count
         (LockEv.release sid)) := by
  unfold findAndLockRewriteRegion
  by_cases hrv : revalidate idx2 (rewriteRegionSorted idx1 segBase radius) = true
  · rw [if_pos hrv]
    left
    refine ⟨rewriteRegionSorted_ne_nil hbase, ?_⟩
    cases hs : rewriteRegionSorted idx1 segBase radius with
    | nil => exact absurd hs (rewriteRegionSorted_ne_nil hbase)
    | cons seg rest =>
      rw [hs] at hrv
      exact ⟨findPos idx2 seg.lower,
        revalidateFrom_spec idx2 (seg :: rest) _ hrv⟩
  · rw [if_neg hrv]
    right
    exact ⟨rfl, fun sid =>
      lockEv_counts (rewriteRegionSorted idx1 segBase radius) sid⟩

/-- Witness for C4 at a concrete index (quiescent: both snapshots equal). -/
theorem findAndLockRewriteRegion_revalidation_witness :
    lowerBoundIdx idxTwo 5 < idxTwo.length ∧
    (((findAndLockRewriteRegion idxTwo idxTwo 5 1).1 ≠ [] ∧
      ∃ p, ∀ (n : Nat) (e : Entry),
        (findAndLockRewriteRegion idxTwo idxTwo 5 1).1[n]? = some e →
        ∃ si, idxTwo[p + n]? = some (e.lower, si)) ∨
     ((findAndLockRewriteRegion idxTwo idxTwo 5 1).1 = [] ∧
      ∀ sid, (findAndLockRewriteRegion idxTwo idxTwo 5 1).2.count
          (LockEv.acquire sid) =
        (findAndLockRewriteRegion idxTwo idxTwo 5 1).2.count
          (LockEv.release sid))) :=
  ⟨by decide, findAndLockRewriteRegion_revalidation idxTwo idxTwo 5 1 (by decide)⟩

/-- C5: with `segmentBase` an existing key of the index, the collected
region consists of the base segment's position plus at most `searchRadius`
immediately preceding and at most `searchRadius` immediately following
positions, each walk extending only through segments whose overflow hint
is set (the first segment without it is excluded and stops the walk); the
sorted vector is a permutation of the collected entries, strictly
ascending in `lower`, and the lock-event trace begins with `Reorg`
acquisitions in exactly that ascending order. -/
theorem findAndLockRewriteRegion_region (idx1 : Index) (segBase radius : Nat)
    (si : SegmentInfo) (hwf : IdxWF idx1) (hbase : (segBase, si) ∈ idx1) :
    idx1[lowerBoundIdx idx1 segBase]? = some (segBase, si) ∧
    (∀ q, q ∈ collectPositions idx1 (lowerBoundIdx idx1 segBase) radius ↔
      (q = lowerBoundIdx idx1 segBase ∨
       (q < lowerBoundIdx idx1 segBase ∧
        lowerBoundIdx idx1 segBase ≤ q + radius ∧
        ∀ r, q ≤ r → r < lowerBoundIdx idx1 segBase →
          hasOvfAt idx1 r = true) ∨
       (lowerBoundIdx idx1 segBase < q ∧
        q ≤ lowerBoundIdx idx1 segBase + radius ∧ q < idx1.length ∧
        ∀ r, lowerBoundIdx idx1 segBase < r → r ≤ q →
          hasOvfAt idx1 r = true))) ∧
    (rewriteRegionSorted idx1 segBase radius).Perm
      ((collectPositions idx1 (lowerBoundIdx idx1 segBase) radius).filterMap
        (fun p => entryAt idx1 p)) ∧
    (rewriteRegionSorted idx1 segBase radius).Pairwise
      (fun a b => a.lower < b.lower) ∧
    (∀ idx2, (findAndLockRewriteRegion idx1 idx2 segBase radius).2.take
        (rewriteRegionSorted idx1 segBase radius).length =
      (rewriteRegionSorted idx1 segBase radius).map
        (fun s => LockEv.acquire s.sinfo.id)) := by
  refine ⟨(lowerBound_exact hwf hbase).1,
    fun q => collectPositions_mem idx1 _ radius q,
    List.mergeSort_perm _ entryLe,
    rewriteRegionSorted_strict hwf segBase radius,
    fun idx2 => ?_⟩
  unfold findAndLockRewriteRegion
  by_cases hrv : revalidate idx2 (rewriteRegionSorted idx1 segBase radius) = true
  · rw [if_pos hrv]
    simp only
    rw [← List.length_map (rewriteRegionSorted idx1 segBase radius)
      (fun s => LockEv.acquire s.sinfo.id)]
    exact List.take_length _
  · rw [if_neg hrv]
    simp only
    rw [← List.length_map (rewriteRegionSorted idx1 segBase radius)
      (fun s => LockEv.acquire s.sinfo.id)]
    exact List.take_left _ _

/-- Concrete five-segment index used by the C5 witness. -/
def idxFive : Index :=
  [(0, ⟨0, 1, true⟩), (10, ⟨1, 1, true⟩), (20, ⟨2, 1, true⟩),
   (30, ⟨3, 1, false⟩), (40, ⟨4, 1, true⟩)]

/-- Witness for C5 at a concrete index, base key and radius. -/
theorem findAndLockRewriteRegion_region_witness :
    (IdxWF idxFive ∧ (20, (⟨2, 1, true⟩ : SegmentInfo)) ∈ idxFive) ∧
    (idxFive[lowerBoundIdx idxFive 20]? = some (20, ⟨2, 1, true⟩) ∧
     (∀ q, q ∈ collectPositions idxFive (lowerBoundIdx idxFive 20) 5 ↔
       (q = lowerBoundIdx idxFive 20 ∨
        (q < lowerBoundIdx idxFive 20 ∧ lowerBoundIdx idxFive 20 ≤ q + 5 ∧
         ∀ r, q ≤ r → r < lowerBoundIdx idxFive 20 →
           hasOvfAt idxFive r = true) ∨
        (lowerBoundIdx idxFive 20 < q ∧ q ≤ lowerBoundIdx idxFive 20 + 5 ∧
         q < idxFive.length ∧
         ∀ r, lowerBoundIdx idxFive 20 < r → r ≤ q →
           hasOvfAt idxFive r = true))) ∧
     (rewriteRegionSorted idxFive 20 5).Perm
       ((collectPositions idxFive (lowerBoundIdx idxFive 20) 5).filterMap
         (fun p => entryAt idxFive p)) ∧
     (rewriteRegionSorted idxFive 20 5).Pairwise
       (fun a b => a.lower < b.lower) ∧
     (∀ idx2, (findAndLockRewriteRegion idxFive idx2 20 5).2.take
         (rewriteRegionSorted idxFive 20 5).length =
       (rewriteRegionSorted idxFive 20 5).map
         (fun s => LockEv.acquire s.sinfo.id))) :=
  ⟨⟨by decide, by decide⟩,
   findAndLockRewriteRegion_region idxFive 20 5 ⟨2, 1, true⟩
     (by decide) (by decide)⟩

/-! ### Deferred-I/O flush policy (`src/bench/deferred_io_simulation.cc`) -/

/-- A memtable record: key, value, and entry type (`kWrite`/`kDelete`). -/
structure MtEntry where
  key : Nat
  value : Nat
  kind : Bool
deriving DecidableEq

/-- The per-page flush bookkeeping vectors `memtable_entries_per_page` and
`page_deferral_count`. -/
structure FlushState where
  entriesPerPage : List Nat
  deferralCount : List Nat
deriving DecidableEq

/-- The flush predicate of the marking loop (source lines 110-111):
`memtable_entries_per_page[p] >= io_threshold ||
 page_deferral_count[p] >= max_deferrals`. -/
def flushDecision (ioT maxD : Nat) (st : FlushState) (p : Nat) : Bool :=
  decide (ioT ≤ st.entriesPerPage.getD p 0) ||
  decide (maxD ≤ st.deferralCount.getD p 0)

/-- The marking loop over the memtable iterator (source lines 104-116):
for each entry compute its page via the model (`pageOf`); either mark the
page flushed-this-round or append the entry to the backup memtable. -/
def markLoop (pageOf : Nat → Nat) (ioT maxD : Nat) (st : FlushState) :
    List MtEntry → List Bool → List MtEntry → List Bool × List MtEntry
  | [], fl, bk => (fl, bk)
  | e :: rest, fl, bk =>
    if flushDecision ioT maxD st (pageOf e.key) then
      markLoop pageOf ioT maxD st rest (fl.set (pageOf e.key) true) bk
    else
      markLoop pageOf ioT maxD st rest fl (bk ++ [e])

/-- One flush cycle (source lines 100-133): mark pages / build the backup
memtable, then for every page either perform the materialized write and
reset both counters, or increment the deferral count. Returns the
flushed-this-round flags, the backup memtable (which becomes the next
active memtable at the swap), the new bookkeeping state, and the number of
logical I/Os issued. -/
def flushCycle (pageOf : Nat → Nat) (ioT maxD numPages : Nat)
    (st : FlushState) (mt : List MtEntry) :
    List Bool × List MtEntry × FlushState × Nat :=
  let marked := markLoop pageOf ioT maxD st mt
    (List.replicate numPages false) []
  let newEntries := (List.range numPages).map
    (fun i => if marked.1.getD i false then 0 else st.entriesPerPage.getD i 0)
  let newDefer := (List.range numPages).map
    (fun i => if marked.1.getD i false then 0
      else st.deferralCount.getD i 0 + 1)
  (marked.1, marked.2, ⟨newEntries, newDefer⟩, marked.1.count true)

theorem markLoop_backup (pageOf : Nat → Nat) (ioT maxD : Nat)
    (st : FlushState) : ∀ (mt : List MtEntry) (fl : List Bool)
    (bk : List MtEntry),
    (markLoop pageOf ioT maxD st mt fl bk).2 =
      bk ++ mt.filter (fun e => !flushDecision ioT maxD st (pageOf e.key)) := by
  intro mt
  induction mt with
  | nil =>
    intro fl bk
    simp [markLoop]
  | cons e rest ih =>
    intro fl bk
    by_cases hd : flushDecision ioT maxD st (pageOf e.key) = true
    · rw [show markLoop pageOf ioT maxD st (e :: rest) fl bk =
        markLoop pageOf ioT maxD st rest (fl.set (pageOf e.key) true) bk by
          simp [markLoop, hd]]
      rw [ih]
      simp [List.filter_cons, hd]
    · rw [show markLoop pageOf ioT maxD st (e :: rest) fl bk =
        markLoop pageOf ioT maxD st rest fl (bk ++ [e]) by
          simp [markLoop, hd]]
      rw [ih]
      simp [List.filter_cons, hd]

theorem markLoop_length (pageOf : Nat → Nat) (ioT maxD : Nat)
    (st : FlushState) : ∀ (mt : List MtEntry) (fl : List Bool)
    (bk : List MtEntry),
    (markLoop pageOf ioT maxD st mt fl bk).1.length = fl.length := by
  intro mt
  induction mt with
  | nil =>
    intro fl bk
    simp [markLoop]
  | cons e rest ih =>
    intro fl bk
    by_cases hd : flushDecision ioT maxD st (pageOf e.key) = true
    · rw [show markLoop pageOf ioT maxD st (e :: rest) fl bk =
        markLoop pageOf ioT maxD st rest (fl.set (pageOf e.key) true) bk by
          simp [markLoop, hd]]
      rw [ih]
      simp
    · rw [show markLoop pageOf ioT maxD st (e :: rest) fl bk =
        markLoop pageOf ioT maxD st rest fl (bk ++ [e]) by
          simp [markLoop, hd]]
      exact ih fl (bk ++ [e])

theorem getD_set_self {fl : List Bool} {p : Nat} (hp : p < fl.length) :
    (fl.set p true).getD p false = true := by
  rw [List.getD_eq_getElem?_getD, List.getElem?_set]
  simp [hp]

theorem getD_set_ne {fl : List Bool} {p q : Nat} (hpq : p ≠ q) :
    (fl.set p true).getD q false = fl.getD q false := by
  rw [List.getD_eq_getElem?_getD, List.getElem?_set, if_neg hpq,
    ← List.getD_eq_getElem?_getD]

theorem markLoop_flags (pageOf : Nat → Nat) (ioT maxD : Nat)
    (st : FlushState) : ∀ (mt : List MtEntry) (fl : List Bool)
    (bk : List MtEntry) (q : Nat),
    (∀ e ∈ mt, pageOf e.key < fl.length) →
    (markLoop pageOf ioT maxD st mt fl bk).1.getD q false =
      (fl.getD q false || mt.any (fun e =>
        decide (pageOf e.key = q) && flushDecision ioT maxD st (pageOf e.key))) := by
  intro mt
  induction mt with
  | nil =>
    intro fl bk q hP
    simp [markLoop]
  | cons e rest ih =>
    intro fl bk q hP
    have hPe : pageOf e.key < fl.length := hP e (List.mem_cons_self e rest)
    have hPr : ∀ x ∈ rest, pageOf x.key < fl.length :=
      fun x hx => hP x (List.mem_cons_of_mem e hx)
    by_cases hd : flushDecision ioT maxD st (pageOf e.key) = true
    · rw [show markLoop pageOf ioT maxD st (e :: rest) fl bk =
        markLoop pageOf ioT maxD st rest (fl.set (pageOf e.key) true) bk by
          simp [markLoop, hd]]
      rw [ih (fl.set (pageOf e.key) true) bk q (by simpa using hPr)]
      by_cases hq : pageOf e.key = q
      · subst hq
        rw [getD_set_self hPe]
        simp [List.any_cons, hd]
      · rw [getD_set_ne hq]
        simp [List.any_cons, hq]
    · rw [show markLoop pageOf ioT maxD st (e :: rest) fl bk =
        markLoop pageOf ioT maxD st rest fl (bk ++ [e]) by
          simp [markLoop, hd]]
      rw [ih fl (bk ++ [e]) q hPr]
      simp [List.any_cons, hd]

theorem getD_map_range {f : Nat → Nat} {n p : Nat} (hp : p < n) :
    ((List.range n).map f).getD p 0 = f p := by
  rw [List.getD_eq_getElem?_getD, List.getElem?_map, List.getElem?_range hp]
  rfl

theorem getD_replicate_false {n q : Nat} :
    (List.replicate n false).getD q false = false := by
  rw [List.getD_eq_getElem?_getD]
  cases h : (List.replicate n false)[q]? with
  | none => rfl
  | some b =>
    have := List.getElem?_mem h
    rw [List.eq_of_mem_replicate this]
    rfl

theorem flushCycle_flag_eq (pageOf : Nat → Nat) (ioT maxD numPages : Nat)
    (st : FlushState) (mt : List MtEntry)
    (hP : ∀ e ∈ mt, pageOf e.key < numPages) (q : Nat) :
    (flushCycle pageOf ioT maxD numPages st mt).1.getD q false =
      mt.any (fun e => decide (pageOf e.key = q) &&
        flushDecision ioT maxD st (pageOf e.key)) := by
  unfold flushCycle
  simp only
  rw [markLoop_flags pageOf ioT maxD st mt (List.replicate numPages false) [] q
    (by simpa using hP)]
  rw [getD_replicate_false, Bool.false_or]

/-- C6: per flush cycle, each memtable entry's page is computed via the
model; that page is marked flushed-this-round exactly when
`memtableEntriesForPage[p] ≥ ioThreshold` or `pageDeferralCount[p] ≥
maxDeferrals` held at the start of the cycle, and otherwise (and only
otherwise) the entry is inserted into the backup memtable; hence every
memtable entry either belongs to a flushed-this-round page or appears in
the backup memtable after the cycle, never both. -/
theorem flushCycle_partition (pageOf : Nat → Nat) (ioT maxD numPages : Nat)
    (st : FlushState) (mt : List MtEntry)
    (hP : ∀ e ∈ mt, pageOf e.key < numPages) :
    (flushCycle pageOf ioT maxD numPages st mt).2.1 =
      mt.filter (fun e => !flushDecision ioT maxD st (pageOf e.key)) ∧
    ∀ e ∈ mt,
      ((flushCycle pageOf ioT maxD numPages st mt).1.getD (pageOf e.key) false =
        flushDecision ioT maxD st (pageOf e.key)) ∧
      ((flushCycle pageOf ioT maxD numPages st mt).1.getD (pageOf e.key) false =
        true → e ∉ (flushCycle pageOf ioT maxD numPages st mt).2.1) ∧
      ((flushCycle pageOf ioT maxD numPages st mt).1.getD (pageOf e.key) false =
        false → e ∈ (flushCycle pageOf ioT maxD numPages st mt).2.1) := by
  have hbk : (flushCycle pageOf ioT maxD numPages st mt).2.1 =
      mt.filter (fun e => !flushDecision ioT maxD st (pageOf e.key)) := by
    unfold flushCycle
    simp only
    rw [markLoop_backup]
    simp
  refine ⟨hbk, fun e he => ?_⟩
  have hflag : (flushCycle pageOf ioT maxD numPages st mt).1.getD
      (pageOf e.key) false = flushDecision ioT maxD st (pageOf e.key) := by
    rw [flushCycle_flag_eq pageOf ioT maxD numPages st mt hP (pageOf e.key)]
    cases hfd : flushDecision ioT maxD st (pageOf e.key) with
    | true =>
      rw [List.any_eq_true]
      exact ⟨e, he, by rw [hfd]; simp⟩
    | false =>
      rw [List.any_eq_false]
      intro x hx
      by_cases hpx : pageOf x.key = pageOf e.key
      · rw [hpx, hfd]
        simp
      · simp [hpx]
  refine ⟨hflag, fun htrue => ?_, fun hfalse => ?_⟩
  · rw [hbk, List.mem_filter]
    rintro ⟨-, hcond⟩
    rw [hflag] at htrue
    rw [htrue] at hcond
    simp at hcond
  · rw [hbk, List.mem_filter]
    rw [hflag] at hfalse
    exact ⟨he, by rw [hfalse]; rfl⟩

/-- Concrete inputs for the C6 witness: two pages, the model sends key `k`
to page `k / 10`. -/
def mtW : List MtEntry := [⟨3, 30, true⟩, ⟨12, 40, true⟩]

/-- Concrete bookkeeping state for the C6/C7 witnesses. -/
def stW : FlushState := ⟨[2, 1], [0, 0]⟩

/-- Witness for C6 at concrete inputs (`ioThreshold = 2`,
`maxDeferrals = 3`). -/
theorem flushCycle_partition_witness :
    (∀ e ∈ mtW, (fun k => k / 10) e.key < 2) ∧
    ((flushCycle (fun k => k / 10) 2 3 2 stW mtW).2.1 =
      mtW.filter (fun e => !flushDecision 2 3 stW ((fun k => k / 10) e.key)) ∧
     ∀ e ∈ mtW,
      ((flushCycle (fun k => k / 10) 2 3 2 stW mtW).1.getD
        ((fun k => k / 10) e.key) false =
        flushDecision 2 3 stW ((fun k => k / 10) e.key)) ∧
      ((flushCycle (fun k => k / 10) 2 3 2 stW mtW).1.getD
        ((fun k => k / 10) e.key) false = true →
        e ∉ (flushCycle (fun k => k / 10) 2 3 2 stW mtW).2.1) ∧
      ((flushCycle (fun k => k / 10) 2 3 2 stW mtW).1.getD
        ((fun k => k / 10) e.key) false = false →
        e ∈ (flushCycle (fun k => k / 10) 2 3 2 stW mtW).2.1)) :=
  ⟨by decide, flushCycle_partition (fun k => k / 10) 2 3 2 stW mtW (by decide)⟩

/-- C7: after a flush cycle, a page marked flushed-this-round has both
`memtableEntriesForPage` and `pageDeferralCount` reset to `0`; every other
page keeps `memtableEntriesForPage` and has `pageDeferralCount` incremented
by exactly `1`; and a page whose deferral count has reached `maxDeferrals`
is flushed, not deferred, in any cycle in which a memtable entry targets
it — so no page with pending entries is deferred more than `maxDeferrals`
consecutive flush cycles. -/
theorem flushCycle_deferral (pageOf : Nat → Nat) (ioT maxD numPages : Nat)
    (st : FlushState) (mt : List MtEntry)
    (hP : ∀ e ∈ mt, pageOf e.key < numPages) :
    ∀ p, p < numPages →
      ((flushCycle pageOf ioT maxD numPages st mt).1.getD p false = true →
        (flushCycle pageOf ioT maxD numPages st mt).2.2.1.entriesPerPage.getD
          p 0 = 0 ∧
        (flushCycle pageOf ioT maxD numPages st mt).2.2.1.deferralCount.getD
          p 0 = 0) ∧
      ((flushCycle pageOf ioT maxD numPages st mt).1.getD p false = false →
        (flushCycle pageOf ioT maxD numPages st mt).2.2.1.deferralCount.getD
          p 0 = st.deferralCount.getD p 0 + 1 ∧
        (flushCycle pageOf ioT maxD numPages st mt).2.2.1.entriesPerPage.getD
          p 0 = st.entriesPerPage.getD p 0) ∧
      (maxD ≤ st.deferralCount.getD p 0 → (∃ e ∈ mt, pageOf e.key = p) →
        (flushCycle pageOf ioT maxD numPages st mt).1.getD p false = true) := by
  intro p hp
  have hE : (flushCycle pageOf ioT maxD numPages st mt).2.2.1.entriesPerPage.getD
      p 0 = (if (flushCycle pageOf ioT maxD numPages st mt).1.getD p false
        then 0 else st.entriesPerPage.getD p 0) := by
    unfold flushCycle
    simp only
    rw [getD_map_range hp]
  have hD : (flushCycle pageOf ioT maxD numPages st mt).2.2.1.deferralCount.getD
      p 0 = (if (flushCycle pageOf ioT maxD numPages st mt).1.getD p false
        then 0 else st.deferralCount.getD p 0 + 1) := by
    unfold flushCycle
    simp only
    rw [getD_map_range hp]
  refine ⟨fun htrue => ?_, fun hfalse => ?_, fun hmax htar => ?_⟩
  · rw [hE, hD, htrue]
    simp
  · rw [hE, hD, hfalse]
    simp
  · obtain ⟨e, he, hpe⟩ := htar
    rw [flushCycle_flag_eq pageOf ioT maxD numPages st mt hP p,
      List.any_eq_true]
    refine ⟨e, he, ?_⟩
    rw [hpe]
    simp only [decide_True, Bool.true_and]
    simp only [flushDecision, Bool.or_eq_true, decide_eq_true_eq]
    right
    exact hmax

/-- Witness for C7 at concrete inputs (`ioThreshold = 5`,
`maxDeferrals = 0`: every targeted page is flushed immediately). -/
theorem flushCycle_deferral_witness :
    (∀ e ∈ mtW, (fun k => k / 10) e.key < 2) ∧
    (∀ p, p < 2 →
      ((flushCycle (fun k => k / 10) 5 0 2 stW mtW).1.getD p false = true →
        (flushCycle (fun k => k / 10) 5 0 2 stW mtW).2.2.1.entriesPerPage.getD
          p 0 = 0 ∧
        (flushCycle (fun k => k / 10) 5 0 2 stW mtW).2.2.1.deferralCount.getD
          p 0 = 0) ∧
      ((flushCycle (fun k => k / 10) 5 0 2 stW mtW).1.getD p false = false →
        (flushCycle (fun k => k / 10) 5 0 2 stW mtW).2.2.1.deferralCount.getD
          p 0 = stW.deferralCount.getD p 0 + 1 ∧
        (flushCycle (fun k => k / 10) 5 0 2 stW mtW).2.2.1.entriesPerPage.getD
          p 0 = stW.entriesPerPage.getD p 0) ∧
      (0 ≤ stW.deferralCount.getD p 0 → (∃ e ∈ mtW, (fun k => k / 10) e.key = p) →
        (flushCycle (fun k => k / 10) 5 0 2 stW mtW).1.getD p false = true)) :=
  ⟨by decide, flushCycle_deferral (fun k => k / 10) 5 0 2 stW mtW (by decide)⟩

/-! ### Range scan (`DBImpl::GetRange`)

The scan's collaborators (`model_`, `FixOverflowChain`, `PageMergeIterator`,
`buf_mgr_`) are not part of the given sources; they are modelled from the
spec (sections 4.B-4.D, 4.I and 6) under the quiescence hypothesis of the
claims: no concurrent writes or reorganizations, so `FixOverflowChain`
succeeds on its first attempt and the model is stable. -/

/-- Modelled from the spec: an overflow chain under quiescence, reduced to
what the scan observes — the base page's lower boundary key and the
key-ordered stream of live records the `PageMergeIterator` yields over the
chain (spec section 4.D; under quiescence every live record appears exactly
once, spec properties 2-3). -/
structure Chain where
  lowerBoundary : Nat
  records : List (Nat × Nat)
deriving DecidableEq

/-- Modelled from the spec: `model_->KeyToPageId(key)` of section 6 — the
base page (here: chain index) responsible for `key`, a predecessor lookup
over the chain boundaries that answers the first chain for keys below
every boundary, and the invalid id (`none`) for an empty page space. -/
def keyToPageId (db : List Chain) (k : Nat) : Option Nat :=
  if db.isEmpty then none
  else
    let i := db.findIdx (fun c => k < c.lowerBoundary)
    some (if i = 0 then 0 else i - 1)

/-- Modelled from the spec: `model_->KeyToNextPageId(key)` of section 6 —
the id of the page whose base key is strictly greater than `key`, or the
invalid id (`none`) past the last page. -/
def keyToNextPageId (db : List Chain) (k : Nat) : Option Nat :=
  let i := db.findIdx (fun c => k < c.lowerBoundary)
  if i < db.length then some i else none

/-- Buffer-manager pin events at overflow-chain granularity: one `fix` per
successful `FixOverflowChain(i)` (every frame of chain `i` pinned), one
`unfix` per unfix loop over chain `i`'s frames. -/
inductive PinEv where
  | fix (i : Nat)
  | unfix (i : Nat)
deriving DecidableEq

/-- The unfix loop over a pinned chain (`for (auto& bf : *chain)
UnfixPage(*bf, false)`), or nothing when no chain is held. -/
def unfixAll (curr : Option Nat) : List PinEv :=
  match curr with
  | none => []
  | some j => [PinEv.unfix j]

/-- The scan loop of `DBImpl::GetRange` under quiescence, instrumented with
pin events. Arguments mirror the source state: remaining `fuel` (the chain
index strictly increases each iteration, so `db.length + 1` suffices),
`pid` = `curr_page_id`, `first` = `is_first_page`, `acc` = `results_out`,
`curr` = the currently pinned chain (`curr_page_chain`, `none` initially).
Each iteration fixes the next chain, unfixes the previous one, emits
records until the batch is full (seeking to `start_key` on the first
chain), and advances via `KeyToNextPageId(chain.lowerBoundary)`; on every
exit path the last pinned chain is unfixed. -/
def scanGo (db : List Chain) (startKey numRecords : Nat) :
    Nat → Option Nat → Bool → List (Nat × Nat) → Option Nat →
    List (Nat × Nat) × List PinEv
  | 0, _, _, acc, curr => (acc, unfixAll curr)
  | fuel + 1, pid, first, acc, curr =>
    if acc.length < numRecords then
      match pid with
      | none => (acc, unfixAll curr)
      | some i =>
        match db[i]? with
        | none => (acc, unfixAll curr)
        | some ch =>
          let recs := if first then
              ch.records.dropWhile (fun r => decide (r.1 < startKey))
            else ch.records
          let acc2 := acc ++ recs.take (numRecords - acc.length)
          let rest := scanGo db startKey numRecords fuel
            (keyToNextPageId db ch.lowerBoundary) false acc2 (some i)
          (rest.1, (PinEv.fix i :: unfixAll curr) ++ rest.2)
    else (acc, unfixAll curr)

/-- The whole scan: start at `KeyToPageId(start_key)` with an empty batch
and nothing pinned. -/
def getRangeScan (db : List Chain) (startKey numRecords : Nat) :
    List (Nat × Nat) × List PinEv :=
  scanGo db startKey numRecords (db.length + 1) (keyToPageId db startKey)
    true [] none

/-- API status values (section 7); `GetRange` only ever builds `ok`. -/
inductive Status where
  | ok
  | notFound
  | ioError
deriving DecidableEq

/-- `DBImpl::GetRange`: clear `results_out`, run the scan loop, return
`Status::OK()` (the single `return` of the source). -/
def getRange (db : List Chain) (startKey numRecords : Nat)
    (resultsOut : List (Nat × Nat)) : Status × List (Nat × Nat) :=
  let cleared : List (Nat × Nat) := []
  (Status.ok,
    (scanGo db startKey numRecords (db.length + 1) (keyToPageId db startKey)
      true cleared none).1)

/-- Quiescent well-formedness of the page space: chain boundaries strictly
increase; each chain's record stream is strictly ascending in key and
bounded below by the chain's lower boundary; and every record of a chain
lies strictly below the successor chain's boundary. -/
def DbWF (db : List Chain) : Prop :=
  (db.map (fun c => c.lowerBoundary)).Pairwise (· < ·) ∧
  (∀ ch ∈ db, ch.records.Pairwise (fun a b => a.1 < b.1) ∧
    ∀ r ∈ ch.records, ch.lowerBoundary ≤ r.1) ∧
  ∀ p ∈ db.zip db.tail, ∀ r ∈ p.1.records, r.1 < p.2.lowerBoundary

instance : DecidablePred DbWF := fun db => by
  unfold DbWF; infer_instance

theorem dbwf_boundary_lt {db : List Chain} (hwf : DbWF db) {i j : Nat}
    {ci cj : Chain} (hi : db[i]? = some ci) (hj : db[j]? = some cj)
    (hij : i < j) : ci.lowerBoundary < cj.lowerBoundary := by
  have hs := hwf.1
  rw [List.pairwise_iff_getElem] at hs
  obtain ⟨hi', hie⟩ := List.getElem?_eq_some.mp hi
  obtain ⟨hj', hje⟩ := List.getElem?_eq_some.mp hj
  have hmi : i < (db.map (fun c => c.lowerBoundary)).length := by simpa using hi'
  have hmj : j < (db.map (fun c => c.lowerBoundary)).length := by simpa using hj'
  have := hs i j hmi hmj hij
  simp only [List.getElem_map] at this
  rwa [hie, hje] at this

theorem dbwf_records_lt_next {db : List Chain} (hwf : DbWF db) {i : Nat}
    {ci cnext : Chain} (hi : db[i]? = some ci)
    (hnext : db[i + 1]? = some cnext) :
    ∀ r ∈ ci.records, r.1 < cnext.lowerBoundary := by
  obtain ⟨hilen, hie⟩ := List.getElem?_eq_some.mp hi
  obtain ⟨hjlen, hje⟩ := List.getElem?_eq_some.mp hnext
  have htl : i < db.tail.length := by
    rw [List.length_tail]
    omega
  have hziplen : i < (db.zip db.tail).length := by
    rw [List.length_zip, List.length_tail]
    simp only [lt_min_iff]
    omega
  have hz1 : (db.zip db.tail)[i]? = some ((db.zip db.tail)[i]) :=
    List.getElem?_eq_getElem hziplen
  have hz2 : (db.zip db.tail)[i] = (db[i], db.tail[i]) := List.getElem_zip
  have hz3 : db.tail[i] = db[i + 1] := List.getElem_tail db i htl
  rw [hz2, hz3, hie, hje] at hz1
  exact hwf.2.2 (ci, cnext) (List.getElem?_mem hz1)

theorem dbwf_records_lt_later {db : List Chain} (hwf : DbWF db) {i j : Nat}
    {ci cj : Chain} (hi : db[i]? = some ci) (hj : db[j]? = some cj)
    (hij : i < j) : ∀ r ∈ ci.records, r.1 < cj.lowerBoundary := by
  obtain ⟨hj', -⟩ := List.getElem?_eq_some.mp hj
  have hnextlen : i + 1 < db.length := by omega
  have hnext : db[i + 1]? = some db[i + 1] := List.getElem?_eq_getElem hnextlen
  intro r hr
  have h1 := dbwf_records_lt_next hwf hi hnext r hr
  rcases Nat.eq_or_lt_of_le (show i + 1 ≤ j by omega) with heq | hlt
  · have h2 : db[j]? = some db[i + 1] := by
      rw [← heq]
      exact hnext
    rw [← Option.some_inj.mp (h2.symm.trans hj)]
    exact h1
  · exact Nat.lt_trans h1 (dbwf_boundary_lt hwf hnext hj hlt)

theorem keyToPageId_spec {db : List Chain} (hwf : DbWF db) {k i : Nat}
    (h : keyToPageId db k = some i) :
    i < db.length ∧
    ∀ j cj, db[j]? = some cj → i < j → k < cj.lowerBoundary := by
  unfold keyToPageId at h
  by_cases hemp : db.isEmpty
  · rw [if_pos hemp] at h
    simp at h
  · rw [if_neg hemp] at h
    simp only [Option.some_inj] at h
    have hFlen : db.findIdx (fun c => decide (k < c.lowerBoundary)) ≤
        db.length := List.findIdx_le_length _
    have hlen0 : 0 < db.length := by
      cases db with
      | nil => simp at hemp
      | cons c t => simp
    constructor
    · by_cases h0 : db.findIdx (fun c => decide (k < c.lowerBoundary)) = 0
      · rw [if_pos h0] at h
        omega
      · rw [if_neg h0] at h
        omega
    · intro j cj hj hij
      obtain ⟨hjlen, hje⟩ := List.getElem?_eq_some.mp hj
      have hFj : db.findIdx (fun c => decide (k < c.lowerBoundary)) ≤ j := by
        by_cases h0 : db.findIdx (fun c => decide (k < c.lowerBoundary)) = 0
        · omega
        · rw [if_neg h0] at h
          omega
      have hFlt : db.findIdx (fun c => decide (k < c.lowerBoundary)) <
          db.length := by omega
      have hkF : k < (db[db.findIdx
          (fun c => decide (k < c.lowerBoundary))]).lowerBoundary := by
        have := @List.findIdx_getElem _
          (fun c => decide (k < c.lowerBoundary)) db hFlt
        simpa using this
      have hF? : db[db.findIdx (fun c => decide (k < c.lowerBoundary))]? =
          some db[db.findIdx (fun c => decide (k < c.lowerBoundary))] :=
        List.getElem?_eq_getElem hFlt
      rcases Nat.eq_or_lt_of_le hFj with heq | hlt
      · have h2 : db[j]? =
            some db[db.findIdx (fun c => decide (k < c.lowerBoundary))] := by
          rw [← heq]
          exact hF?
        rwa [Option.some_inj.mp (h2.symm.trans hj)] at hkF
      · exact Nat.lt_trans hkF (dbwf_boundary_lt hwf hF? hj hlt)

theorem keyToNextPageId_spec {db : List Chain} (hwf : DbWF db) {i : Nat}
    {ch : Chain} (hi : db[i]? = some ch) :
    keyToNextPageId db ch.lowerBoundary =
      if i + 1 < db.length then some (i + 1) else none := by
  unfold keyToNextPageId
  obtain ⟨hilen, hie⟩ := List.getElem?_eq_some.mp hi
  have hFlen : db.findIdx (fun c => decide (ch.lowerBoundary <
      c.lowerBoundary)) ≤ db.length := List.findIdx_le_length _
  have hFgt : i < db.findIdx
      (fun c => decide (ch.lowerBoundary < c.lowerBoundary)) := by
    by_contra hcon
    have hFle : db.findIdx (fun c => decide (ch.lowerBoundary <
        c.lowerBoundary)) ≤ i := by omega
    have hFlt : db.findIdx (fun c => decide (ch.lowerBoundary <
        c.lowerBoundary)) < db.length := by omega
    have hkF : ch.lowerBoundary < (db[db.findIdx
        (fun c => decide (ch.lowerBoundary < c.lowerBoundary))]).lowerBoundary := by
      have := @List.findIdx_getElem _
        (fun c => decide (ch.lowerBoundary < c.lowerBoundary)) db hFlt
      simpa using this
    have hF? : db[db.findIdx (fun c => decide (ch.lowerBoundary <
        c.lowerBoundary))]? = some db[db.findIdx
        (fun c => decide (ch.lowerBoundary < c.lowerBoundary))] :=
      List.getElem?_eq_getElem hFlt
    rcases Nat.eq_or_lt_of_le hFle with heq | hlt
    · have h2 : db[i]? = some db[db.findIdx
          (fun c => decide (ch.lowerBoundary < c.lowerBoundary))] := by
        rw [← heq]
        exact hF?
      have h3 := Option.some_inj.mp (h2.symm.trans hi)
      rw [h3] at hkF
      omega
    · have := dbwf_boundary_lt hwf hF? hi hlt
      omega
  have hFle2 : db.findIdx (fun c => decide (ch.lowerBoundary <
      c.lowerBoundary)) ≤ i + 1 := by
    by_contra hcon
    have hlt : i + 1 < db.findIdx
        (fun c => decide (ch.lowerBoundary < c.lowerBoundary)) := by omega
    have hlen2 : i + 1 < db.length := by omega
    have hfalse := List.not_of_lt_findIdx hlt
    have hsort := dbwf_boundary_lt hwf hi
      (List.getElem?_eq_getElem hlen2) (by omega)
    simp only [decide_eq_false_iff_not, Nat.not_lt] at hfalse
    omega
  have hFeq : db.findIdx (fun c => decide (ch.lowerBoundary <
      c.lowerBoundary)) = i + 1 := by omega
  rw [hFeq]

theorem dropWhile_lt_ge {startKey : Nat} : ∀ l : List (Nat × Nat),
    l.Pairwise (fun a b => a.1 < b.1) →
    ∀ r ∈ l.dropWhile (fun r => decide (r.1 < startKey)), startKey ≤ r.1 := by
  intro l
  induction l with
  | nil =>
    intro _ r hr
    simp at hr
  | cons a t ih =>
    intro hp r hr
    rw [List.dropWhile_cons] at hr
    by_cases ha : a.1 < startKey
    · rw [if_pos (by simpa using ha)] at hr
      exact ih (List.pairwise_cons.mp hp).2 r hr
    · rw [if_neg (by simpa using ha)] at hr
      rcases List.mem_cons.mp hr with heq | hmem
      · rw [heq]
        omega
      · have := (List.pairwise_cons.mp hp).1 r hmem
        omega

theorem scanGo_results (db : List Chain) (startKey numRecords : Nat)
    (hwf : DbWF db) : ∀ (fuel : Nat) (pid : Option Nat) (first : Bool)
    (acc : List (Nat × Nat)) (curr : Option Nat),
    acc.length ≤ numRecords →
    acc.Pairwise (fun a b => a.1 < b.1) →
    (∀ r ∈ acc, startKey ≤ r.1) →
    (∀ i, pid = some i →
      (∀ ci, db[i]? = some ci → (∀ r ∈ acc, r.1 < ci.lowerBoundary) ∧
        (first = false → startKey ≤ ci.lowerBoundary)) ∧
      (∀ j cj, db[j]? = some cj → i < j → startKey ≤ cj.lowerBoundary)) →
    (scanGo db startKey numRecords fuel pid first acc curr).1.length ≤
      numRecords ∧
    (scanGo db startKey numRecords fuel pid first acc curr).1.Pairwise
      (fun a b => a.1 < b.1) ∧
    ∀ r ∈ (scanGo db startKey numRecords fuel pid first acc curr).1,
      startKey ≤ r.1 := by
  intro fuel
  induction fuel with
  | zero =>
    intro pid first acc curr hlen hp hge hpid
    exact ⟨hlen, hp, hge⟩
  | succ f ih =>
    intro pid first acc curr hlen hp hge hpid
    by_cases hfull : acc.length < numRecords
    · cases hpid? : pid with
      | none =>
        simp only [scanGo, if_pos hfull]
        exact ⟨hlen, hp, hge⟩
      | some i =>
        cases hch? : db[i]? with
        | none =>
          simp only [scanGo, if_pos hfull, hch?]
          exact ⟨hlen, hp, hge⟩
        | some ch =>
          simp only [scanGo, if_pos hfull, hch?]
          obtain ⟨hthis, hlater⟩ := hpid i hpid?
          obtain ⟨hacclt, hfirstge⟩ := hthis ch hch?
          have hrecS : ch.records.Pairwise (fun a b => a.1 < b.1) :=
            (hwf.2.1 ch (List.getElem?_mem hch?)).1
          have hrecLB : ∀ r ∈ ch.records, ch.lowerBoundary ≤ r.1 :=
            (hwf.2.1 ch (List.getElem?_mem hch?)).2
          set recs := (if first then
              ch.records.dropWhile (fun r => decide (r.1 < startKey))
            else ch.records) with hrecs
          have hrecsSub : recs.Sublist ch.records := by
            rw [hrecs]
            by_cases hfst : first = true
            · rw [if_pos hfst]
              exact List.dropWhile_sublist _
            · rw [if_neg hfst]
          have hrecsS : recs.Pairwise (fun a b => a.1 < b.1) :=
            List.Pairwise.sublist hrecsSub hrecS
          have hrecsGe : ∀ r ∈ recs, startKey ≤ r.1 := by
            rw [hrecs]
            by_cases hfst : first = true
            · rw [if_pos hfst]
              exact dropWhile_lt_ge ch.records hrecS
            · rw [if_neg hfst]
              intro r hr
              have h1 := hrecLB r hr
              have h2 := hfirstge (by simpa using hfst)
              omega
          set emitted := recs.take (numRecords - acc.length) with hem
          have hemSub : emitted.Sublist recs := List.take_sublist _ _
          have hemMem : ∀ r ∈ emitted, r ∈ ch.records :=
            fun r hr => hrecsSub.mem (hemSub.mem hr)
          have hacc2len : (acc ++ emitted).length ≤ numRecords := by
            rw [List.length_append, hem, List.length_take]
            omega
          have hacc2p : (acc ++ emitted).Pairwise (fun a b => a.1 < b.1) := by
            rw [List.pairwise_append]
            refine ⟨hp, List.Pairwise.sublist hemSub hrecsS, ?_⟩
            intro a ha b hb
            have h1 := hacclt a ha
            have h2 := hrecLB b (hemMem b hb)
            omega
          have hacc2ge : ∀ r ∈ acc ++ emitted, startKey ≤ r.1 := by
            intro r hr
            rcases List.mem_append.mp hr with h | h
            · exact hge r h
            · exact hrecsGe r (hemSub.mem h)
          have hnext := keyToNextPageId_spec hwf hch?
          have hpid2 : ∀ i2, keyToNextPageId db ch.lowerBoundary = some i2 →
              (∀ ci, db[i2]? = some ci →
                (∀ r ∈ acc ++ emitted, r.1 < ci.lowerBoundary) ∧
                (false = false → startKey ≤ ci.lowerBoundary)) ∧
              (∀ j cj, db[j]? = some cj → i2 < j →
                startKey ≤ cj.lowerBoundary) := by
            intro i2 hi2
            rw [hnext] at hi2
            by_cases hlen2 : i + 1 < db.length
            · rw [if_pos hlen2] at hi2
              have hi2eq : i2 = i + 1 := (Option.some_inj.mp hi2).symm
              subst hi2eq
              constructor
              · intro ci hci
                constructor
                · intro r hr
                  rcases List.mem_append.mp hr with h | h
                  · have h1 := hacclt r h
                    have h2 := dbwf_boundary_lt hwf hch? hci (by omega)
                    omega
                  · exact dbwf_records_lt_next hwf hch? hci r (hemMem r h)
                · intro _
                  exact hlater (i + 1) ci hci (by omega)
              · intro j cj hj hij
                exact hlater j cj hj (by omega)
            · rw [if_neg hlen2] at hi2
              exact absurd hi2 (Option.noConfusion)
          exact ih (keyToNextPageId db ch.lowerBoundary) false
            (acc ++ emitted) (some i) hacc2len hacc2p hacc2ge hpid2
    · simp only [scanGo, if_neg hfull]
      exact ⟨hlen, hp, hge⟩

/-- C1: under quiescence, `GetRange(startKey, numRecords)` returns at most
`numRecords` records, every returned record has key `≥ startKey`, and the
returned sequence is strictly ascending in key. -/
theorem getRange_scan_spec (db : List Chain) (startKey numRecords : Nat)
    (hwf : DbWF db) :
    (getRangeScan db startKey numRecords).1.length ≤ numRecords ∧
    (∀ r ∈ (getRangeScan db startKey numRecords).1, startKey ≤ r.1) ∧
    (getRangeScan db startKey numRecords).1.Pairwise
      (fun a b => a.1 < b.1) := by
  have h := scanGo_results db startKey numRecords hwf (db.length + 1)
    (keyToPageId db startKey) true [] none (by simp) (by simp) (by simp) ?_
  · exact ⟨h.1, h.2.2, h.2.1⟩
  · intro i hi
    obtain ⟨hilen, hlater⟩ := keyToPageId_spec hwf hi
    refine ⟨fun ci hci => ⟨by simp, by simp⟩, ?_⟩
    intro j cj hj hij
    exact Nat.le_of_lt (hlater j cj hj hij)

/-- Concrete two-chain page space used by the scan witnesses (spec seed
test S1/S2 shape). -/
def dbTwo : List Chain :=
  [⟨10, [(10, 1), (20, 2), (30, 3)]⟩, ⟨100, [(120, 4)]⟩]

/-- Witness for C1 at a concrete page space. -/
theorem getRange_scan_spec_witness :
    DbWF dbTwo ∧
    ((getRangeScan dbTwo 15 3).1.length ≤ 3 ∧
     (∀ r ∈ (getRangeScan dbTwo 15 3).1, 15 ≤ r.1) ∧
     (getRangeScan dbTwo 15 3).1.Pairwise (fun a b => a.1 < b.1)) :=
  ⟨by decide, getRange_scan_spec dbTwo 15 3 (by decide)⟩

/-- C9: `GetRange` first clears `results_out` (its output does not depend
on the incoming contents), returns `Status::OK()` on every input, and on
an invalid initial page id (empty key space) returns OK with an empty
batch — it never produces an error status itself. -/
theorem getRange_status (db : List Chain) (startKey numRecords : Nat)
    (resultsOut : List (Nat × Nat)) :
    (getRange db startKey numRecords resultsOut).1 = Status.ok ∧
    (getRange db startKey numRecords resultsOut).2 =
      (getRange db startKey numRecords []).2 ∧
    (keyToPageId db startKey = none →
      (getRange db startKey numRecords resultsOut).2 = []) := by
  refine ⟨rfl, rfl, fun h => ?_⟩
  unfold getRange
  by_cases hnum : 0 < numRecords
  · simp [scanGo, h, hnum]
  · simp [scanGo, h, hnum]

/-- Witness for C9 on the empty page space. -/
theorem getRange_status_witness :
    keyToPageId ([] : List Chain) 0 = none ∧
    ((getRange [] 0 5 [(1, 1)]).1 = Status.ok ∧
     (getRange [] 0 5 [(1, 1)]).2 = (getRange [] 0 5 []).2 ∧
     (getRange [] 0 5 [(1, 1)]).2 = []) :=
  ⟨by decide, (getRange_status [] 0 5 [(1, 1)]).1,
   (getRange_status [] 0 5 [(1, 1)]).2.1,
   (getRange_status [] 0 5 [(1, 1)]).2.2 (by decide)⟩

/-! ### Pin conservation (C8) -/

/-- Number of `fix c` events in a trace. -/
def countFix (evs : List PinEv) (c : Nat) : Nat := evs.count (PinEv.fix c)

/-- Number of `unfix c` events in a trace. -/
def countUnfix (evs : List PinEv) (c : Nat) : Nat := evs.count (PinEv.unfix c)

/-- Discriminator for fix events. -/
def isFix : PinEv → Bool
  | PinEv.fix _ => true
  | PinEv.unfix _ => false

/-- Number of fix events of any chain. -/
def numFix (evs : List PinEv) : Nat := evs.countP isFix

/-- Number of unfix events of any chain. -/
def numUnfix (evs : List PinEv) : Nat := evs.countP (fun e => !isFix e)

/-- Net number of chains pinned after a trace (fixes minus unfixes). -/
def pinBal (evs : List PinEv) : Int :=
  (numFix evs : Int) - (numUnfix evs : Int)

theorem countFix_unfixAll (curr : Option Nat) (c : Nat) :
    countFix (unfixAll curr) c = 0 := by
  cases curr with
  | none => rfl
  | some j => simp [unfixAll, countFix]

theorem countUnfix_unfixAll (curr : Option Nat) (c : Nat) :
    countUnfix (unfixAll curr) c = if curr = some c then 1 else 0 := by
  cases curr with
  | none => rfl
  | some j =>
    simp only [unfixAll, countUnfix, List.count_cons, List.count_nil]
    by_cases hj : j = c
    · subst hj
      simp
    · simp [hj]

theorem pinBal_nil : pinBal [] = 0 := rfl

theorem pinBal_cons (e : PinEv) (l : List PinEv) :
    pinBal (e :: l) = (if isFix e then 1 else -1) + pinBal l := by
  unfold pinBal numFix numUnfix
  rw [List.countP_cons, List.countP_cons]
  by_cases h : isFix e = true
  · simp only [h, Bool.not_true, if_pos, if_true]
    push_cast
    ring
  · have h' : isFix e = false := by
      cases he : isFix e
      · rfl
      · exact absurd he h
    simp only [h', Bool.not_false, if_false]
    push_cast
    ring

theorem pinBal_cons_fix (i : Nat) (l : List PinEv) :
    pinBal (PinEv.fix i :: l) = 1 + pinBal l := by
  rw [pinBal_cons]
  simp [isFix]

theorem pinBal_cons_unfix (i : Nat) (l : List PinEv) :
    pinBal (PinEv.unfix i :: l) = -1 + pinBal l := by
  rw [pinBal_cons]
  simp [isFix]

theorem pinBal_unfixAll (curr : Option Nat) :
    pinBal (unfixAll curr) = if curr.isSome then -1 else 0 := by
  cases curr with
  | none => rfl
  | some j =>
    show pinBal [PinEv.unfix j] = -1
    rw [show ([PinEv.unfix j] : List PinEv) = PinEv.unfix j :: [] from rfl,
      pinBal_cons, pinBal_nil]
    rfl

theorem unfixAll_prefix_facts (curr : Option Nat) :
    (curr = none →
      (∀ k, 0 < k → k < (unfixAll curr).length →
        1 ≤ pinBal ((unfixAll curr).take k)) ∧ pinBal (unfixAll curr) = 0) ∧
    (∀ j, curr = some j →
      (∀ k, k < (unfixAll curr).length →
        0 ≤ pinBal ((unfixAll curr).take k)) ∧
      pinBal (unfixAll curr) = -1) := by
  cases curr with
  | none =>
    refine ⟨fun _ => ⟨fun k hk hlen => ?_, rfl⟩,
      fun j hj => Option.noConfusion hj⟩
    simp [unfixAll] at hlen
  | some j =>
    refine ⟨fun h => Option.noConfusion h,
      fun j' hj' => ⟨fun k hk => ?_, ?_⟩⟩
    · have hk1 : k < 1 := by simpa [unfixAll] using hk
      have hk0 : k = 0 := by omega
      subst hk0
      simp [pinBal_nil]
    · rw [pinBal_unfixAll]
      rfl

/-- The outcome of one execution of the inner fix-retry loop of `GetRange`
(source lines 22-36) in an arbitrary, possibly concurrent, environment:
`some (i, recs)` when some attempt of `FixOverflowChain` finally succeeds
on chain `i`, whose merge iterator then yields the record stream `recs`;
`none` when the loop is skipped or exits because the (re-queried) page id
became invalid. A failed `FixOverflowChain` attempt pins nothing and emits
no pin event (spec section 4.C: the chain comes back wholly pinned, or not
at all), and the requery lines 27-35 only recompute `curr_page_id`; so a
whole run of the retry loop affects the pin state exactly through this one
outcome. Indexing the oracle by the outer-iteration number lets it encode
any interleaving of fix failures and reorg-induced renumbering, including
revisiting a page id. -/
abbrev FixOracle := Nat → Option (Nat × List (Nat × Nat))

/-- The outer loop of `DBImpl::GetRange` over an arbitrary environment,
instrumented with pin events: iteration `step` asks the oracle for the
retry loop's outcome; on a successful fix the new chain is pinned, the
previously pinned chain is unfixed (source lines 40-46), records are
emitted until the batch is full, and the scan advances; on an invalid page
id the loop exits — whether at the outer loop head (line 16) or through
the defensive check after the retry loop (lines 48-54), the one pinned
chain receives the single final unfix (lines 40-46 or 74-80), producing
the same trace. `fuel` bounds the number of outer iterations: every
terminating execution of the source loop is an instance for a large
enough `fuel` and the oracle matching its fix outcomes. -/
def scanLoopAny (numRecords : Nat) (oracle : FixOracle) :
    Nat → Nat → List (Nat × Nat) → Option Nat →
    List (Nat × Nat) × List PinEv
  | 0, _, acc, curr => (acc, unfixAll curr)
  | fuel + 1, step, acc, curr =>
    if acc.length < numRecords then
      match oracle step with
      | none => (acc, unfixAll curr)
      | some (i, recs) =>
        let acc2 := acc ++ recs.take (numRecords - acc.length)
        let rest := scanLoopAny numRecords oracle fuel (step + 1) acc2
          (some i)
        (rest.1, (PinEv.fix i :: unfixAll curr) ++ rest.2)
    else (acc, unfixAll curr)

theorem scanLoopAny_balance (numRecords : Nat) (oracle : FixOracle) :
    ∀ (fuel step : Nat) (acc : List (Nat × Nat)) (curr : Option Nat)
      (c : Nat),
    countUnfix (scanLoopAny numRecords oracle fuel step acc curr).2 c =
      countFix (scanLoopAny numRecords oracle fuel step acc curr).2 c +
      (if curr = some c then 1 else 0) := by
  intro fuel
  induction fuel with
  | zero =>
    intro step acc curr c
    simp only [scanLoopAny]
    rw [countFix_unfixAll, countUnfix_unfixAll]
    omega
  | succ f ih =>
    intro step acc curr c
    by_cases hfull : acc.length < numRecords
    · cases ho : oracle step with
      | none =>
        simp only [scanLoopAny, if_pos hfull, ho]
        rw [countFix_unfixAll, countUnfix_unfixAll]
        omega
      | some pr =>
        obtain ⟨i, recs⟩ := pr
        simp only [scanLoopAny, if_pos hfull, ho]
        unfold countUnfix countFix
        rw [List.count_append, List.count_append, List.count_cons,
          List.count_cons]
        have hIH := ih (step + 1)
          (acc ++ List.take (numRecords - acc.length) recs) (some i) c
        unfold countUnfix countFix at hIH
        have hcf := countFix_unfixAll curr c
        have hcu := countUnfix_unfixAll curr c
        unfold countFix at hcf
        unfold countUnfix at hcu
        rw [hcf, hcu, hIH]
        have hfix : (PinEv.fix i == PinEv.unfix c) = false := by
          simp
        have hsome : (if (some i : Option Nat) = some c then 1 else 0) =
            (if (PinEv.fix i == PinEv.fix c) = true then 1 else 0) := by
          by_cases hic : i = c
          · subst hic
            simp
          · simp [hic]
        have hunfix : (PinEv.unfix c == PinEv.fix c) = false := by
          simp
        rw [hfix, hsome]
        simp only [if_false, Bool.false_eq_true]
        omega
    · simp only [scanLoopAny, if_neg hfull]
      rw [countFix_unfixAll, countUnfix_unfixAll]
      omega

theorem scanLoopAny_pinned (numRecords : Nat) (oracle : FixOracle) :
    ∀ (fuel step : Nat) (acc : List (Nat × Nat)) (curr : Option Nat),
    (curr = none →
      (∀ k, 0 < k →
        k < (scanLoopAny numRecords oracle fuel step acc curr).2.length →
        1 ≤ pinBal
          ((scanLoopAny numRecords oracle fuel step acc curr).2.take k)) ∧
      pinBal (scanLoopAny numRecords oracle fuel step acc curr).2 = 0) ∧
    (∀ j, curr = some j →
      (∀ k,
        k < (scanLoopAny numRecords oracle fuel step acc curr).2.length →
        0 ≤ pinBal
          ((scanLoopAny numRecords oracle fuel step acc curr).2.take k)) ∧
      pinBal (scanLoopAny numRecords oracle fuel step acc curr).2 = -1) := by
  intro fuel
  induction fuel with
  | zero =>
    intro step acc curr
    simp only [scanLoopAny]
    exact unfixAll_prefix_facts curr
  | succ f ih =>
    intro step acc curr
    by_cases hfull : acc.length < numRecords
    · cases ho : oracle step with
      | none =>
        simp only [scanLoopAny, if_pos hfull, ho]
        exact unfixAll_prefix_facts curr
      | some pr =>
        obtain ⟨i, recs⟩ := pr
        cases curr with
        | none =>
          simp only [scanLoopAny, if_pos hfull, ho, unfixAll,
            List.nil_append]
          set rest := (scanLoopAny numRecords oracle f (step + 1)
            (acc ++ List.take (numRecords - acc.length) recs)
            (some i)).2 with hrest
          obtain ⟨hpre, hend⟩ := (ih (step + 1)
            (acc ++ List.take (numRecords - acc.length) recs)
            (some i)).2 i rfl
          rw [← hrest] at hpre hend
          refine ⟨fun _ => ⟨fun k hk0 hklen => ?_, ?_⟩,
            fun j hj => Option.noConfusion hj⟩
          · rw [List.singleton_append] at hklen ⊢
            cases k with
            | zero => omega
            | succ k1 =>
              rw [List.take_succ_cons, pinBal_cons_fix]
              have hk1 : k1 < rest.length := by
                simp only [List.length_cons] at hklen
                omega
              have := hpre k1 hk1
              omega
          · rw [List.singleton_append, pinBal_cons_fix, hend]
            omega
        | some j =>
          simp only [scanLoopAny, if_pos hfull, ho, unfixAll,
            List.cons_append, List.nil_append]
          set rest := (scanLoopAny numRecords oracle f (step + 1)
            (acc ++ List.take (numRecords - acc.length) recs)
            (some i)).2 with hrest
          obtain ⟨hpre, hend⟩ := (ih (step + 1)
            (acc ++ List.take (numRecords - acc.length) recs)
            (some i)).2 i rfl
          rw [← hrest] at hpre hend
          refine ⟨fun h => Option.noConfusion h,
            fun j' hj' => ⟨fun k hklen => ?_, ?_⟩⟩
          · cases k with
            | zero => simp [pinBal_nil]
            | succ k1 =>
              cases k1 with
              | zero =>
                rw [List.take_succ_cons, List.take_zero, pinBal_cons_fix,
                  pinBal_nil]
                omega
              | succ k2 =>
                rw [List.take_succ_cons, List.take_succ_cons,
                  pinBal_cons_fix, pinBal_cons_unfix]
                have hk2 : k2 < rest.length := by
                  simp only [List.length_cons] at hklen
                  omega
                have := hpre k2 hk2
                omega
          · rw [pinBal_cons_fix, pinBal_cons_unfix, hend]
            omega
    · simp only [scanLoopAny, if_neg hfull]
      exact unfixAll_prefix_facts curr

/-- C8: during every (terminating) execution of `GetRange` — any
interleaving of `FixOverflowChain` failures, reorg-induced requeries and
renumbering, and the early exit when the batch fills, as ranged over by
the fix-outcome oracle and the iteration bound — every chain successfully
fixed is unfixed exactly as many times as it was fixed before the call
returns (per chain id, unfix events equal fix events, and nothing is ever
unfixed without a matching fix); the trace ends with no chain pinned; and
after every proper non-empty prefix of the trace at least one chain — the
previous or the current — is still pinned. -/
theorem getRange_pin_conservation (numRecords : Nat) (oracle : FixOracle)
    (fuel : Nat) :
    (∀ c, countUnfix (scanLoopAny numRecords oracle fuel 0 [] none).2 c =
      countFix (scanLoopAny numRecords oracle fuel 0 [] none).2 c) ∧
    pinBal (scanLoopAny numRecords oracle fuel 0 [] none).2 = 0 ∧
    (∀ k, 0 < k →
      k < (scanLoopAny numRecords oracle fuel 0 [] none).2.length →
      1 ≤ pinBal ((scanLoopAny numRecords oracle fuel 0 [] none).2.take k)) := by
  refine ⟨fun c => ?_, ?_, ?_⟩
  · have hbal := scanLoopAny_balance numRecords oracle fuel 0 [] none c
    simpa using hbal
  · exact ((scanLoopAny_pinned numRecords oracle fuel 0 [] none).1 rfl).2
  · exact fun k hk0 hklen =>
      ((scanLoopAny_pinned numRecords oracle fuel 0 [] none).1 rfl).1
        k hk0 hklen

end Treeline
